import Mathlib

/-!
Verification of the grid-to-grid rate remapping engine of the fecsep
repository (`src/fecsep/utils.py`, with a near-duplicate copy in
`src/code/utils.py`).

The engine works on axis-aligned lon/lat rectangular cells.  A forecast is a
list of cells together with a rate matrix (one rate vector per cell, one
entry per magnitude bin).  `_forecast_mapping_generic` re-expresses the rate
matrix of a source partition on a target partition in two phases: an
exact-containment phase (`_map_exact_inside_cells`) and an area-proportional
overlap phase (`_map_overlapping_cells`).

Floating point numbers are idealised as rationals.  The external area
function `csep.core.regions.geographical_area_from_bounds` (spherical cap
strip formula, `const * (lon2 - lon1) * (sin (lat2 deg) - sin (lat1 deg))`)
is modelled with an abstract latitude weight `G : ℚ → ℚ`, giving
`(lon2 - lon1) * (G lat2 - G lat1)`; the properties of the real weight used
by the theorems (strict monotonicity on `[-90, 90]`) are stated as explicit
hypotheses.  Shapely polygon operations on axis-aligned rectangles are
modelled by their bounds arithmetic.  `multiprocessing.Pool.map` is modelled
by its documented semantics: the input list is split into chunks, each chunk
is mapped, and the per-chunk results are concatenated in input order.
-/

/-- A lon/lat axis-aligned rectangle, stored in the source's row layout
`[lon1, lat1, lon2, lat2]` = `[lon_min, lat_min, lon_max, lat_max]`. -/
structure Cell where
  lon1 : ℚ
  lat1 : ℚ
  lon2 : ℚ
  lat2 : ℚ
deriving DecidableEq, Repr

instance : Inhabited Cell := ⟨⟨0, 0, 0, 0⟩⟩

/-- Cell validity from the spec's data model: ordered bounds and latitudes
within `[-90, 90]`. -/
def validCell (c : Cell) : Prop :=
  c.lon1 < c.lon2 ∧ c.lat1 < c.lat2 ∧ -90 ≤ c.lat1 ∧ c.lat2 ≤ 90

/-- Membership of a point in the half-open box `[lon1, lon2) x [lat1, lat2)`
of a cell.  Half-open boxes make "non-overlapping" and "exact tiling" exact
pointwise statements for grid-aligned rectangles. -/
def memHO (p : ℚ × ℚ) (c : Cell) : Prop :=
  c.lon1 ≤ p.1 ∧ p.1 < c.lon2 ∧ c.lat1 ≤ p.2 ∧ p.2 < c.lat2

/-- Membership of a point in the open interior of a cell. -/
def memOpen (p : ℚ × ℚ) (c : Cell) : Prop :=
  c.lon1 < p.1 ∧ p.1 < c.lon2 ∧ c.lat1 < p.2 ∧ p.2 < c.lat2

instance (p : ℚ × ℚ) (c : Cell) : Decidable (memHO p c) :=
  inferInstanceAs (Decidable (c.lon1 ≤ p.1 ∧ p.1 < c.lon2 ∧ c.lat1 ≤ p.2 ∧ p.2 < c.lat2))

instance (p : ℚ × ℚ) (c : Cell) : Decidable (memOpen p c) :=
  inferInstanceAs (Decidable (c.lon1 < p.1 ∧ p.1 < c.lon2 ∧ c.lat1 < p.2 ∧ p.2 < c.lat2))

/-- Models `csep.core.regions.geographical_area_from_bounds` (external
dependency of both `utils.py` copies).  The library computes
`R^2/(4*pi*360) * strip_area_steradian(lat1, lat2) * (lon2 - lon1)`, which
has the separable form `(lon2 - lon1) * (G lat2 - G lat1)` for the latitude
weight `G lat = const * sin (lat * pi / 180)`; `G` is kept abstract. -/
def geographical_area_from_bounds (G : ℚ → ℚ) (lon1 lat1 lon2 lat2 : ℚ) : ℚ :=
  (lon2 - lon1) * (G lat2 - G lat1)

/-- Models `create_polygon` (`src/fecsep/utils.py` line 729 and
`src/code/utils.py` line 268): the shapely polygon with vertices
`(lon1, lat1), (lon2, lat1), (lon2, lat2), (lon1, lat2)` is the rectangle
itself, represented by its bounds. -/
def create_polygon (fg : Cell) : Cell := fg

/-- Models `calc_cell_area` (`src/fecsep/utils.py` line 737 and
`src/code/utils.py` line 275). -/
def calc_cell_area (G : ℚ → ℚ) (cell : Cell) : ℚ :=
  geographical_area_from_bounds G cell.lon1 cell.lat1 cell.lon2 cell.lat2

/-- Models shapely's `intersects` on two axis-aligned rectangles: the closed
rectangles meet (sharing only an edge or a corner counts). -/
def rectIntersects (a b : Cell) : Bool :=
  decide (a.lon1 ≤ b.lon2) && decide (b.lon1 ≤ a.lon2) &&
  decide (a.lat1 ≤ b.lat2) && decide (b.lat1 ≤ a.lat2)

/-- Models shapely's `intersection(...).bounds` on two intersecting
axis-aligned rectangles: componentwise max of the lower corners and min of
the upper corners. -/
def rectIntersection (a b : Cell) : Cell :=
  ⟨max a.lon1 b.lon1, max a.lat1 b.lat1, min a.lon2 b.lon2, min a.lat2 b.lat2⟩

/-- Models numpy's elementwise addition of two 1-D arrays, including
broadcasting of a length-1 array against a longer one.  Shapes that numpy
rejects yield the empty list (unreachable for rectangular rate matrices). -/
def npAdd (a b : List ℚ) : List ℚ :=
  if a.length = b.length then List.zipWith (· + ·) a b
  else if a.length = 1 then b.map (fun x => a.headD 0 + x)
  else if b.length = 1 then a.map (fun x => x + b.headD 0)
  else []

/-- Index list kept by `numpy.delete(rows, idxs, axis=0)`: all row indices
not listed in `idxs`, in increasing order. -/
def remainingIdx (n : ℕ) (idxs : List ℕ) : List ℕ :=
  (List.range n).filter (fun i => ! idxs.contains i)

/-- Models `numpy.delete(rows, idxs, axis=0)`: the rows whose index does not
occur in `idxs`, in their original order (duplicate indices in `idxs` are
collapsed). -/
def npDelete {α : Type} [Inhabited α] (rows : List α) (idxs : List ℕ) : List α :=
  (remainingIdx rows.length idxs).map (fun i => rows.getD i default)

/-- Models `numpy.concatenate` on a list of 1-D index arrays: it raises
`ValueError` ("need at least one array to concatenate") on an empty list,
and otherwise joins the arrays. -/
def npConcatenate (ls : List (List ℕ)) : Option (List ℕ) :=
  if ls.isEmpty then none else some ls.flatten

/-- Fuel-driven worker for `chunkIntoSize` (structural recursion so that the
model evaluates by `decide`/`rfl`). -/
def chunkGo {α : Type} : ℕ → ℕ → List α → List (List α)
  | _, _, [] => []
  | 0, _, xs => [xs]
  | _ + 1, 0, xs => [xs]
  | f + 1, k + 1, a :: as => (a :: as.take k) :: chunkGo f (k + 1) (as.drop k)

/-- Splits a list into consecutive chunks of the given size (the final chunk
may be shorter). -/
def chunkIntoSize {α : Type} (k : ℕ) (xs : List α) : List (List α) :=
  chunkGo xs.length k xs

/-- The chunk size CPython's `multiprocessing.Pool.map` uses for a pool of
`nworkers` workers over `n` tasks: `divmod(n, nworkers * 4)` rounded up, and
`0` when there are no tasks. -/
def poolChunksize (nworkers n : ℕ) : ℕ :=
  if n = 0 then 0
  else n / (nworkers * 4) + (if n % (nworkers * 4) = 0 then 0 else 1)

/-- Models `multiprocessing.Pool(ncpu).map (f, xs)` by its documented
semantics: split `xs` into chunks, apply `f` to every element of every
chunk, and concatenate the per-chunk results in input order (`Pool.map`
returns results in input order regardless of worker scheduling). -/
def poolMap {α β : Type} (ncpu : ℕ) (f : α → β) (xs : List α) : List β :=
  ((chunkIntoSize (poolChunksize ncpu xs.length) xs).map (List.map f)).flatten

namespace Fecsep

/-- Embeds `_map_exact_inside_cells` (`src/fecsep/utils.py` lines 777-796).
The boolean mask `c` marks the source cells whose bounds fit inside
`boundary` under closed-interval comparisons; the result is
`(numpy.sum(fcst_rate[c], axis=0), numpy.where(c))`.  The index array inside
numpy.where's 1-tuple is returned directly as a list. -/
def _map_exact_inside_cells (fcst_grid : List Cell) (fcst_rate : List (List ℚ))
    (boundary : Cell) : List ℚ × List ℕ :=
  let c : ℕ → Bool := fun i =>
    let s := fcst_grid.getD i default
    (decide (s.lon1 ≥ boundary.lon1) && decide (s.lat1 ≥ boundary.lat1)) &&
    (decide (s.lon2 ≤ boundary.lon2) && decide (s.lat2 ≤ boundary.lat2))
  let exact_cells : List ℕ := (List.range fcst_grid.length).filter c
  let m := (fcst_rate.headD []).length
  let ratesum :=
    (exact_cells.map (fun i => fcst_rate.getD i [])).foldl
      (List.zipWith (· + ·)) (List.replicate m 0)
  (ratesum, exact_cells)

/-- Embeds `_map_overlapping_cells` (`src/fecsep/utils.py` lines 744-774):
starting from `numpy.array([0])`, for every forecast-grid polygon that
intersects the target polygon, add the cell's rate vector scaled by the
shared area over the cell's own area. -/
def _map_overlapping_cells (G : ℚ → ℚ) (fcst_grid_poly : List Cell)
    (fcst_cell_area : List ℚ) (fcst_rate_poly : List (List ℚ))
    (target_poly : Cell) : List ℚ :=
  (List.range fcst_grid_poly.length).foldl
    (fun map_rate j =>
      let p := fcst_grid_poly.getD j default
      if rectIntersects target_poly p then
        let intersect := rectIntersection target_poly p
        let shared_area := geographical_area_from_bounds G
          intersect.lon1 intersect.lat1 intersect.lon2 intersect.lat2
        npAdd map_rate
          ((fcst_rate_poly.getD j []).map
            (fun r => r * (shared_area / fcst_cell_area.getD j 0)))
      else map_rate)
    [0]

/-- Embeds `_forecast_mapping_generic` (`src/fecsep/utils.py` lines
799-877).  `cpu_count` stands for the machine-dependent value of
`mp.cpu_count()` used when `ncpu` is `None`.  The result is `none` exactly
when `numpy.concatenate` raises on the empty list of per-target index
arrays, i.e. when the target grid is empty. -/
def _forecast_mapping_generic (G : ℚ → ℚ) (cpu_count : ℕ)
    (target_grid fcst_grid : List Cell) (fcst_rate : List (List ℚ))
    (ncpu : Option ℕ) : Option (List (List ℚ)) :=
  let ncpu := ncpu.getD cpu_count
  let exact_rate := poolMap ncpu (_map_exact_inside_cells fcst_grid fcst_rate) target_grid
  let exact_rate_tgt := exact_rate.map (fun pr => pr.1)
  match npConcatenate (exact_rate.map (fun pr => pr.2)) with
  | none => none
  | some exact_cells =>
    let fcst_rate_poly := npDelete fcst_rate exact_cells
    let lft_fcst_grid := npDelete fcst_grid exact_cells
    let fcst_grid_poly := poolMap ncpu create_polygon lft_fcst_grid
    let fcst_cell_area := poolMap ncpu (calc_cell_area G) lft_fcst_grid
    let target_grid_poly := poolMap ncpu create_polygon target_grid
    let rate_tgt := poolMap ncpu
      (_map_overlapping_cells G fcst_grid_poly fcst_cell_area fcst_rate_poly)
      target_grid_poly
    let zero_pad_len := (fcst_rate.headD []).length
    let rate_tgt := rate_tgt.map
      (fun r => if r.length < zero_pad_len then List.replicate zero_pad_len (0 : ℚ) else r)
    some (List.zipWith npAdd rate_tgt exact_rate_tgt)

/-- Embeds `forecast_mapping` (`src/fecsep/utils.py` lines 391-413): it
extracts the target bounds, the source bounds and the source data and calls
`_forecast_mapping_generic`; the surrounding `GriddedForecast` construction
only repackages the returned matrix.  No validation of any kind is
performed. -/
def forecast_mapping (G : ℚ → ℚ) (cpu_count : ℕ)
    (forecast_bounds : List Cell) (forecast_data : List (List ℚ))
    (target_bounds : List Cell) (ncpu : Option ℕ) : Option (List (List ℚ)) :=
  _forecast_mapping_generic G cpu_count target_bounds forecast_bounds forecast_data ncpu

end Fecsep

namespace CodeUtils

/-- Embeds `_map_exact_inside_cells` of the duplicate copy
(`src/code/utils.py` lines 311-328); the logic is character-for-character
the same mask/sum/where computation as the `fecsep` copy. -/
def _map_exact_inside_cells (fcst_grid : List Cell) (fcst_rate : List (List ℚ))
    (boundary : Cell) : List ℚ × List ℕ :=
  let c : ℕ → Bool := fun i =>
    let s := fcst_grid.getD i default
    (decide (s.lon1 ≥ boundary.lon1) && decide (s.lat1 ≥ boundary.lat1)) &&
    (decide (s.lon2 ≤ boundary.lon2) && decide (s.lat2 ≤ boundary.lat2))
  let exact_cells : List ℕ := (List.range fcst_grid.length).filter c
  let m := (fcst_rate.headD []).length
  let ratesum :=
    (exact_cells.map (fun i => fcst_rate.getD i [])).foldl
      (List.zipWith (· + ·)) (List.replicate m 0)
  (ratesum, exact_cells)

/-- Embeds `_map_overlapping_cells` of the duplicate copy
(`src/code/utils.py` lines 282-308). -/
def _map_overlapping_cells (G : ℚ → ℚ) (fcst_grid_poly : List Cell)
    (fcst_cell_area : List ℚ) (fcst_rate_poly : List (List ℚ))
    (target_poly : Cell) : List ℚ :=
  (List.range fcst_grid_poly.length).foldl
    (fun map_rate j =>
      let p := fcst_grid_poly.getD j default
      if rectIntersects target_poly p then
        let intersect := rectIntersection target_poly p
        let shared_area := geographical_area_from_bounds G
          intersect.lon1 intersect.lat1 intersect.lon2 intersect.lat2
        npAdd map_rate
          ((fcst_rate_poly.getD j []).map
            (fun r => r * (shared_area / fcst_cell_area.getD j 0)))
      else map_rate)
    [0]

/-- Embeds `_forecast_mapping_generic` of the duplicate copy
(`src/code/utils.py` lines 331-408).  The copy differs from the `fecsep` one
only by an extra `print` of the number of exact cells, which has no effect
on the returned matrix. -/
def _forecast_mapping_generic (G : ℚ → ℚ) (cpu_count : ℕ)
    (target_grid fcst_grid : List Cell) (fcst_rate : List (List ℚ))
    (ncpu : Option ℕ) : Option (List (List ℚ)) :=
  let ncpu := ncpu.getD cpu_count
  let exact_rate := poolMap ncpu (_map_exact_inside_cells fcst_grid fcst_rate) target_grid
  let exact_rate_tgt := exact_rate.map (fun pr => pr.1)
  match npConcatenate (exact_rate.map (fun pr => pr.2)) with
  | none => none
  | some exact_cells =>
    let fcst_rate_poly := npDelete fcst_rate exact_cells
    let lft_fcst_grid := npDelete fcst_grid exact_cells
    let fcst_grid_poly := poolMap ncpu create_polygon lft_fcst_grid
    let fcst_cell_area := poolMap ncpu (calc_cell_area G) lft_fcst_grid
    let target_grid_poly := poolMap ncpu create_polygon target_grid
    let rate_tgt := poolMap ncpu
      (_map_overlapping_cells G fcst_grid_poly fcst_cell_area fcst_rate_poly)
      target_grid_poly
    let zero_pad_len := (fcst_rate.headD []).length
    let rate_tgt := rate_tgt.map
      (fun r => if r.length < zero_pad_len then List.replicate zero_pad_len (0 : ℚ) else r)
    some (List.zipWith npAdd rate_tgt exact_rate_tgt)

end CodeUtils

/-- Closed-interval containment of a source cell in a target cell, the
predicate decided by the exact-containment mask. -/
def containedP (s t : Cell) : Prop :=
  s.lon1 ≥ t.lon1 ∧ s.lat1 ≥ t.lat1 ∧ s.lon2 ≤ t.lon2 ∧ s.lat2 ≤ t.lat2

/-- The elementwise sum of a list of rate vectors of common length `m`,
starting from the zero vector (the accumulator shape used by
`numpy.sum(-, axis=0)`). -/
def vecSum (m : ℕ) (rows : List (List ℚ)) : List ℚ :=
  rows.foldl (List.zipWith (· + ·)) (List.replicate m 0)

/-- Two cells whose open interiors are disjoint (the spec's notion of a
non-overlapping pair). -/
def interiorDisjoint (t t' : Cell) : Prop :=
  ∀ p : ℚ × ℚ, ¬(memOpen p t ∧ memOpen p t')

/-- Two cells whose half-open boxes are disjoint. -/
def hoDisjoint (t t' : Cell) : Prop :=
  ∀ p : ℚ × ℚ, ¬(memHO p t ∧ memHO p t')

/-- The concatenated per-target consumed-index arrays of the exact phase
(the argument handed to `numpy.delete`). -/
def consumedJoin (fcst_grid : List Cell) (fcst_rate : List (List ℚ))
    (tg : List Cell) : List ℕ :=
  (tg.map (fun t => (Fecsep._map_exact_inside_cells fcst_grid fcst_rate t).2)).flatten

/-- The loop body of `_map_overlapping_cells`, named so that the fold over
the forecast-grid indices can be reasoned about one step at a time. -/
def overlapStep (G : ℚ → ℚ) (fcst_grid_poly : List Cell) (fcst_cell_area : List ℚ)
    (fcst_rate_poly : List (List ℚ)) (target_poly : Cell)
    (map_rate : List ℚ) (j : ℕ) : List ℚ :=
  let p := fcst_grid_poly.getD j default
  if rectIntersects target_poly p then
    let intersect := rectIntersection target_poly p
    let shared_area := geographical_area_from_bounds G
      intersect.lon1 intersect.lat1 intersect.lon2 intersect.lat2
    npAdd map_rate
      ((fcst_rate_poly.getD j []).map
        (fun r => r * (shared_area / fcst_cell_area.getD j 0)))
  else map_rate

/-- The per-magnitude-bin scalar value accumulated by the first `n` loop
iterations of the overlap phase for one target cell: the sum over the
forecast-grid cells intersecting the target of the cell's rate entry scaled
by its shared-over-own area ratio. -/
def overlapScalarN (G : ℚ → ℚ) (polys : List Cell) (areas : List ℚ)
    (rates : List (List ℚ)) (t : Cell) (k : ℕ) (n : ℕ) : ℚ :=
  ∑ j ∈ Finset.range n,
    if rectIntersects t (polys.getD j default) then
      (rates.getD j []).getD k 0 *
        (geographical_area_from_bounds G
          (rectIntersection t (polys.getD j default)).lon1
          (rectIntersection t (polys.getD j default)).lat1
          (rectIntersection t (polys.getD j default)).lon2
          (rectIntersection t (polys.getD j default)).lat2 / areas.getD j 0)
    else 0

/-- The rate vector `_forecast_mapping_generic` computes for one target cell
`t` of the target partition `tg` (the consumed-index set depends on the
whole target partition, so `tg` is part of the context): the zero-padded
overlap row plus the exact-containment row. -/
def targetCellRow (G : ℚ → ℚ) (tg fg : List Cell) (fr : List (List ℚ))
    (t : Cell) : List ℚ :=
  let exact_cells := consumedJoin fg fr tg
  let fcst_rate_poly := npDelete fr exact_cells
  let lft_fcst_grid := npDelete fg exact_cells
  let row := Fecsep._map_overlapping_cells G (lft_fcst_grid.map create_polygon)
    (lft_fcst_grid.map (calc_cell_area G)) fcst_rate_poly (create_polygon t)
  let zero_pad_len := (fr.headD []).length
  let padded :=
    if row.length < zero_pad_len then List.replicate zero_pad_len (0 : ℚ) else row
  npAdd padded (Fecsep._map_exact_inside_cells fg fr t).1

/-- The longitude cut coordinates induced by a source cell and a list of
target cells (used for grid refinement in the area-additivity proof). -/
def lonCuts (s : Cell) (T : List Cell) : Finset ℚ :=
  insert s.lon1 (insert s.lon2 ((T.map Cell.lon1).toFinset ∪ (T.map Cell.lon2).toFinset))

/-- The latitude cut coordinates induced by a source cell and a list of
target cells. -/
def latCuts (s : Cell) (T : List Cell) : Finset ℚ :=
  insert s.lat1 (insert s.lat2 ((T.map Cell.lat1).toFinset ∪ (T.map Cell.lat2).toFinset))

theorem chunkGo_join {α : Type} :
    ∀ (fuel k : ℕ) (xs : List α), xs.length ≤ fuel → (chunkGo fuel k xs).flatten = xs := by
  intro fuel
  induction fuel with
  | zero =>
    intro k xs h
    cases xs with
    | nil => cases k <;> simp [chunkGo]
    | cons a as => simp at h
  | succ f ih =>
    intro k xs h
    cases xs with
    | nil => cases k <;> simp [chunkGo]
    | cons a as =>
      cases k with
      | zero => simp [chunkGo]
      | succ k' =>
        simp only [chunkGo, List.flatten_cons]
        rw [ih (k' + 1) (as.drop k') (by simp only [List.length_drop]; simp at h; omega)]
        simp [List.cons_append, List.take_append_drop]

theorem chunkIntoSize_join {α : Type} (k : ℕ) (xs : List α) :
    (chunkIntoSize k xs).flatten = xs :=
  chunkGo_join xs.length k xs le_rfl

theorem poolMap_eq_map {α β : Type} (ncpu : ℕ) (f : α → β) (xs : List α) :
    poolMap ncpu f xs = xs.map f := by
  unfold poolMap
  rw [← List.map_flatten, chunkIntoSize_join]

theorem zipWith_map_same {α β γ δ : Type} (f : β → γ → δ) (g : α → β) (h : α → γ)
    (l : List α) :
    List.zipWith f (l.map g) (l.map h) = l.map (fun x => f (g x) (h x)) := by
  induction l with
  | nil => rfl
  | cons a as ih => simp [ih]

theorem sum_map_range (n : ℕ) (f : ℕ → ℚ) :
    ((List.range n).map f).sum = ∑ i ∈ Finset.range n, f i := by
  induction n with
  | zero => simp
  | succ k ih => rw [List.range_succ, Finset.sum_range_succ, ← ih]; simp

theorem zipWith_add_getD (a b : List ℚ) (h : a.length = b.length) (k : ℕ) :
    (List.zipWith (· + ·) a b).getD k 0 = a.getD k 0 + b.getD k 0 := by
  induction a generalizing b k with
  | nil =>
    cases b with
    | nil => simp
    | cons y ys => simp at h
  | cons x xs ih =>
    cases b with
    | nil => simp at h
    | cons y ys =>
      cases k with
      | zero => simp
      | succ k' =>
        simp only [List.zipWith_cons_cons, List.getD_cons_succ]
        exact ih ys (by simpa using h) k'

theorem vecSum_aux (m : ℕ) (rows : List (List ℚ)) (hm : ∀ r ∈ rows, r.length = m) :
    ∀ acc : List ℚ, acc.length = m →
      (rows.foldl (List.zipWith (· + ·)) acc).length = m ∧
      ∀ k, (rows.foldl (List.zipWith (· + ·)) acc).getD k 0 =
        acc.getD k 0 + (rows.map (fun r => r.getD k 0)).sum := by
  induction rows with
  | nil => intro acc hacc; simp [hacc]
  | cons r rs ih =>
    intro acc hacc
    have hr : r.length = m := hm r (by simp)
    have hlen : (List.zipWith (· + ·) acc r).length = m := by
      simp [List.length_zipWith, hacc, hr]
    obtain ⟨h1, h2⟩ := ih (fun q hq => hm q (by simp [hq])) _ hlen
    refine ⟨h1, fun k => ?_⟩
    rw [List.foldl_cons, h2 k, zipWith_add_getD acc r (by rw [hacc, hr])]
    simp [add_assoc]

theorem vecSum_length (m : ℕ) (rows : List (List ℚ)) (hm : ∀ r ∈ rows, r.length = m) :
    (vecSum m rows).length = m :=
  (vecSum_aux m rows hm (List.replicate m 0) (by simp)).1

theorem vecSum_getD (m : ℕ) (rows : List (List ℚ)) (hm : ∀ r ∈ rows, r.length = m)
    (k : ℕ) :
    (vecSum m rows).getD k 0 = (rows.map (fun r => r.getD k 0)).sum := by
  rw [vecSum, (vecSum_aux m rows hm (List.replicate m 0) (by simp)).2 k]
  simp [List.getD]

theorem memOpen_memHO {p : ℚ × ℚ} {c : Cell} (h : memOpen p c) : memHO p c :=
  ⟨le_of_lt h.1, h.2.1, le_of_lt h.2.2.1, h.2.2.2⟩

theorem hoDisjoint_interiorDisjoint {t t' : Cell} (h : hoDisjoint t t') :
    interiorDisjoint t t' :=
  fun p hp => h p ⟨memOpen_memHO hp.1, memOpen_memHO hp.2⟩

/-- A cell with ordered bounds that is contained in two interior-disjoint
target cells does not exist: its midpoint would lie in both interiors. -/
theorem containedP_unique {s t t' : Cell} (hlon : s.lon1 < s.lon2)
    (hlat : s.lat1 < s.lat2) (hd : interiorDisjoint t t')
    (h1 : containedP s t) (h2 : containedP s t') : False := by
  obtain ⟨a1, b1, c1, d1⟩ := h1
  obtain ⟨a2, b2, c2, d2⟩ := h2
  refine hd ((s.lon1 + s.lon2) / 2, (s.lat1 + s.lat2) / 2) ⟨⟨?_, ?_, ?_, ?_⟩, ?_, ?_, ?_, ?_⟩
  all_goals simp only []
  · linarith
  · linarith
  · linarith
  · linarith
  · linarith
  · linarith
  · linarith
  · linarith

theorem exact_cells_mem (fcst_grid : List Cell) (fcst_rate : List (List ℚ))
    (t : Cell) (i : ℕ) :
    i ∈ (Fecsep._map_exact_inside_cells fcst_grid fcst_rate t).2 ↔
      i < fcst_grid.length ∧ containedP (fcst_grid.getD i default) t := by
  simp [Fecsep._map_exact_inside_cells, List.mem_filter, List.mem_range, containedP,
    and_assoc, ge_iff_le]

theorem exact_cells_nodup (fcst_grid : List Cell) (fcst_rate : List (List ℚ))
    (t : Cell) : (Fecsep._map_exact_inside_cells fcst_grid fcst_rate t).2.Nodup :=
  List.Nodup.filter _ (List.nodup_range _)

theorem exact_rate_eq_vecSum (fcst_grid : List Cell) (fcst_rate : List (List ℚ))
    (t : Cell) :
    (Fecsep._map_exact_inside_cells fcst_grid fcst_rate t).1 =
      vecSum (fcst_rate.headD []).length
        ((Fecsep._map_exact_inside_cells fcst_grid fcst_rate t).2.map
          (fun i => fcst_rate.getD i [])) := rfl

theorem mem_consumedJoin (fcst_grid : List Cell) (fcst_rate : List (List ℚ))
    (tg : List Cell) (i : ℕ) :
    i ∈ consumedJoin fcst_grid fcst_rate tg ↔
      i < fcst_grid.length ∧ ∃ t ∈ tg, containedP (fcst_grid.getD i default) t := by
  simp only [consumedJoin, List.mem_flatten, List.mem_map]
  constructor
  · rintro ⟨l, ⟨t, ht, rfl⟩, hi⟩
    obtain ⟨hn, hc⟩ := (exact_cells_mem _ _ _ _).1 hi
    exact ⟨hn, t, ht, hc⟩
  · rintro ⟨hn, t, ht, hc⟩
    exact ⟨_, ⟨t, ht, rfl⟩, (exact_cells_mem _ _ _ _).2 ⟨hn, hc⟩⟩

theorem consumedJoin_nodup (fcst_grid : List Cell) (fcst_rate : List (List ℚ))
    (tg : List Cell) (htg : tg.Pairwise interiorDisjoint)
    (hfg : ∀ s ∈ fcst_grid, s.lon1 < s.lon2 ∧ s.lat1 < s.lat2) :
    (consumedJoin fcst_grid fcst_rate tg).Nodup := by
  rw [consumedJoin, List.nodup_flatten]
  constructor
  · intro l hl
    rw [List.mem_map] at hl
    obtain ⟨t, _ht, rfl⟩ := hl
    exact exact_cells_nodup _ _ _
  · rw [List.pairwise_map]
    refine htg.imp ?_
    intro t t' hd i hi hi'
    obtain ⟨hn, hc⟩ := (exact_cells_mem _ _ _ _).1 hi
    obtain ⟨_, hc'⟩ := (exact_cells_mem _ _ _ _).1 hi'
    have hmem : fcst_grid.getD i default ∈ fcst_grid := by
      rw [List.getD_eq_getElem _ _ hn]
      exact List.getElem_mem hn
    obtain ⟨h1, h2⟩ := hfg _ hmem
    exact containedP_unique h1 h2 hd hc hc'

theorem getD_map_mul (row : List ℚ) (q : ℚ) (k : ℕ) :
    (row.map (fun r => r * q)).getD k 0 = row.getD k 0 * q := by
  rcases lt_or_le k row.length with h | h
  · rw [List.getD_eq_getElem _ _ (by simpa using h), List.getD_eq_getElem _ _ h]
    simp
  · rw [List.getD_eq_default _ _ (by simpa using h), List.getD_eq_default _ _ h, zero_mul]

theorem getD_map_zero_add (v : List ℚ) (k : ℕ) :
    (v.map (fun x => 0 + x)).getD k 0 = v.getD k 0 := by
  rcases lt_or_le k v.length with h | h
  · rw [List.getD_eq_getElem _ _ (by simpa using h), List.getD_eq_getElem _ _ h]
    simp
  · rw [List.getD_eq_default _ _ (by simpa using h), List.getD_eq_default _ _ h]

theorem npAdd_eq_len (a b : List ℚ) (h : a.length = b.length) :
    npAdd a b = List.zipWith (· + ·) a b := by
  rw [npAdd, if_pos h]

theorem npAdd_zero_single (v : List ℚ) :
    (npAdd [0] v).length = v.length ∧ ∀ k, (npAdd [0] v).getD k 0 = v.getD k 0 := by
  by_cases h : ([(0 : ℚ)].length) = v.length
  · obtain ⟨x, rfl⟩ : ∃ x, v = [x] := List.length_eq_one.mp (by simpa using h.symm)
    rw [npAdd_eq_len _ _ h]
    refine ⟨by simp, fun k => ?_⟩
    cases k with
    | zero => simp
    | succ k' => simp
  · rw [npAdd, if_neg h, if_pos (by simp : ([(0 : ℚ)].length) = 1)]
    refine ⟨by simp, fun k => ?_⟩
    simp only [List.headD_cons]
    exact getD_map_zero_add v k

theorem mapOverlapping_eq_foldl (G : ℚ → ℚ) (polys : List Cell) (areas : List ℚ)
    (rates : List (List ℚ)) (t : Cell) :
    Fecsep._map_overlapping_cells G polys areas rates t =
      (List.range polys.length).foldl (overlapStep G polys areas rates t) [0] := rfl

theorem overlapStep_pos (G : ℚ → ℚ) (polys : List Cell) (areas : List ℚ)
    (rates : List (List ℚ)) (t : Cell) (acc : List ℚ) (j : ℕ)
    (hin : rectIntersects t (polys.getD j default) = true) :
    overlapStep G polys areas rates t acc j =
      npAdd acc ((rates.getD j []).map
        (fun r => r * (geographical_area_from_bounds G
          (rectIntersection t (polys.getD j default)).lon1
          (rectIntersection t (polys.getD j default)).lat1
          (rectIntersection t (polys.getD j default)).lon2
          (rectIntersection t (polys.getD j default)).lat2 / areas.getD j 0))) := by
  simp only [overlapStep]
  rw [hin]
  simp

theorem overlapStep_neg (G : ℚ → ℚ) (polys : List Cell) (areas : List ℚ)
    (rates : List (List ℚ)) (t : Cell) (acc : List ℚ) (j : ℕ)
    (hin : rectIntersects t (polys.getD j default) = false) :
    overlapStep G polys areas rates t acc j = acc := by
  simp only [overlapStep]
  rw [hin]
  simp

theorem overlapStep_fold (G : ℚ → ℚ) (polys : List Cell) (areas : List ℚ)
    (rates : List (List ℚ)) (t : Cell) (M : ℕ) (hr : ∀ r ∈ rates, r.length = M)
    (n : ℕ) (hn : n ≤ rates.length) :
    ((List.range n).foldl (overlapStep G polys areas rates t) [0] = [0] ∧
      ∀ k, overlapScalarN G polys areas rates t k n = 0) ∨
    (((List.range n).foldl (overlapStep G polys areas rates t) [0]).length = M ∧
      ∀ k, ((List.range n).foldl (overlapStep G polys areas rates t) [0]).getD k 0 =
        overlapScalarN G polys areas rates t k n) := by
  induction n with
  | zero =>
    left
    refine ⟨rfl, fun k => ?_⟩
    simp [overlapScalarN]
  | succ n ih =>
    have hn' : n ≤ rates.length := Nat.le_of_succ_le hn
    have hrow : (rates.getD n []).length = M := by
      have hmem : rates.getD n [] ∈ rates := by
        rw [List.getD_eq_getElem _ _ (Nat.lt_of_succ_le hn)]
        exact List.getElem_mem _
      exact hr _ hmem
    rw [List.range_succ, List.foldl_append, List.foldl_cons, List.foldl_nil]
    have hsucc : ∀ k, overlapScalarN G polys areas rates t k (n + 1) =
        overlapScalarN G polys areas rates t k n +
        (if rectIntersects t (polys.getD n default) then
          (rates.getD n []).getD k 0 *
            (geographical_area_from_bounds G
              (rectIntersection t (polys.getD n default)).lon1
              (rectIntersection t (polys.getD n default)).lat1
              (rectIntersection t (polys.getD n default)).lon2
              (rectIntersection t (polys.getD n default)).lat2 / areas.getD n 0)
        else 0) := fun k => Finset.sum_range_succ _ n
    cases hin : rectIntersects t (polys.getD n default) with
    | true =>
      rw [overlapStep_pos G polys areas rates t _ n hin]
      rcases ih hn' with ⟨hacc, hsum⟩ | ⟨hlen, hval⟩
      · rw [hacc]
        right
        have hvlen : ∀ q : ℚ, ((rates.getD n []).map (fun r => r * q)).length = M := by
          intro q; simpa using hrow
        refine ⟨by rw [(npAdd_zero_single _).1]; exact hvlen _, fun k => ?_⟩
        rw [(npAdd_zero_single _).2 k, getD_map_mul, hsucc k, hsum k, zero_add, if_pos hin]
      · right
        have hvlen : ((rates.getD n []).map
            (fun r => r * (geographical_area_from_bounds G
              (rectIntersection t (polys.getD n default)).lon1
              (rectIntersection t (polys.getD n default)).lat1
              (rectIntersection t (polys.getD n default)).lon2
              (rectIntersection t (polys.getD n default)).lat2 /
                areas.getD n 0))).length = M := by
          simpa using hrow
        rw [npAdd_eq_len _ _ (by rw [hlen, hvlen])]
        constructor
        · rw [List.length_zipWith, hlen, hvlen, min_self]
        · intro k
          rw [zipWith_add_getD _ _ (by rw [hlen, hvlen]) k, hval k, getD_map_mul,
            hsucc k, if_pos hin]
    | false =>
      rw [overlapStep_neg G polys areas rates t _ n hin]
      have hfalse : ¬ (rectIntersects t (polys.getD n default) = true) := by
        rw [hin]; exact Bool.false_ne_true
      rcases ih hn' with ⟨hacc, hsum⟩ | ⟨hlen, hval⟩
      · left
        refine ⟨hacc, fun k => ?_⟩
        rw [hsucc k, hsum k, if_neg hfalse, add_zero]
      · right
        refine ⟨hlen, fun k => ?_⟩
        rw [hsucc k, hval k, if_neg hfalse, add_zero]

theorem fmg_eq_map_targetCellRow (G : ℚ → ℚ) (cc : ℕ) (tg fg : List Cell)
    (fr : List (List ℚ)) (n : Option ℕ) (htg : tg ≠ []) :
    Fecsep._forecast_mapping_generic G cc tg fg fr n =
      some (tg.map (targetCellRow G tg fg fr)) := by
  have hjoin : ((tg.map (Fecsep._map_exact_inside_cells fg fr)).map
      (fun pr => pr.2)).flatten = consumedJoin fg fr tg := by
    rw [List.map_map, consumedJoin]
    rfl
  have hne : ¬ (((tg.map (Fecsep._map_exact_inside_cells fg fr)).map
      (fun pr => pr.2)).isEmpty = true) := by
    simp [List.isEmpty_iff, htg]
  unfold Fecsep._forecast_mapping_generic
  simp only [poolMap_eq_map, npConcatenate, if_neg hne, hjoin]
  congr 1
  rw [List.map_map, List.map_map, List.map_map, zipWith_map_same]
  rfl

theorem fmg_nil (G : ℚ → ℚ) (cc : ℕ) (fg : List Cell) (fr : List (List ℚ))
    (n : Option ℕ) :
    Fecsep._forecast_mapping_generic G cc [] fg fr n = none := rfl

theorem getD_replicate_zero (m k : ℕ) : (List.replicate m (0 : ℚ)).getD k 0 = 0 := by
  rcases lt_or_le k m with h | h
  · rw [List.getD_eq_getElem _ _ (by simpa using h)]
    exact List.getElem_replicate _ _
  · exact List.getD_eq_default _ _ (by simpa using h)

theorem mapOverlapping_padded_getD (G : ℚ → ℚ) (polys : List Cell) (areas : List ℚ)
    (rates : List (List ℚ)) (t : Cell) (M : ℕ) (hr : ∀ r ∈ rates, r.length = M)
    (hn : polys.length ≤ rates.length) (k : ℕ) :
    (if (Fecsep._map_overlapping_cells G polys areas rates t).length < M
      then List.replicate M (0 : ℚ)
      else Fecsep._map_overlapping_cells G polys areas rates t).getD k 0 =
      overlapScalarN G polys areas rates t k polys.length := by
  rw [mapOverlapping_eq_foldl]
  rcases overlapStep_fold G polys areas rates t M hr polys.length hn with
    ⟨hacc, hsum⟩ | ⟨hlen, hval⟩
  · rw [hacc, hsum k]
    by_cases h1M : (1 : ℕ) < M
    · rw [if_pos (by simpa using h1M)]
      exact getD_replicate_zero M k
    · rw [if_neg (by simpa using h1M)]
      cases k with
      | zero => rfl
      | succ k' => rfl
  · rw [hlen, if_neg (lt_irrefl M)]
    exact hval k

theorem mapOverlapping_padded_length (G : ℚ → ℚ) (polys : List Cell) (areas : List ℚ)
    (rates : List (List ℚ)) (t : Cell) (M : ℕ) (hr : ∀ r ∈ rates, r.length = M)
    (hn : polys.length ≤ rates.length) (hM : 0 < M) :
    (if (Fecsep._map_overlapping_cells G polys areas rates t).length < M
      then List.replicate M (0 : ℚ)
      else Fecsep._map_overlapping_cells G polys areas rates t).length = M := by
  rw [mapOverlapping_eq_foldl]
  rcases overlapStep_fold G polys areas rates t M hr polys.length hn with
    ⟨hacc, _⟩ | ⟨hlen, _⟩
  · rw [hacc]
    by_cases h1M : (1 : ℕ) < M
    · rw [if_pos (by simpa using h1M), List.length_replicate]
    · rw [if_neg (by simpa using h1M)]
      have : M = 1 := by omega
      simp [this]
  · rw [hlen, if_neg (lt_irrefl M), hlen]

theorem remainingIdx_lt (n : ℕ) (idxs : List ℕ) :
    ∀ i ∈ remainingIdx n idxs, i < n := by
  intro i hi
  have := List.mem_filter.mp hi
  exact List.mem_range.mp this.1

theorem remainingIdx_nodup (n : ℕ) (idxs : List ℕ) : (remainingIdx n idxs).Nodup :=
  List.Nodup.filter _ (List.nodup_range n)

theorem mem_remainingIdx (n : ℕ) (idxs : List ℕ) (i : ℕ) :
    i ∈ remainingIdx n idxs ↔ i < n ∧ ¬ i ∈ idxs := by
  simp [remainingIdx, List.mem_filter, List.mem_range]

theorem npDelete_length {α : Type} [Inhabited α] (rows : List α) (idxs : List ℕ) :
    (npDelete rows idxs).length = (remainingIdx rows.length idxs).length :=
  List.length_map _ _

theorem npDelete_getD {α : Type} [Inhabited α] (rows : List α) (idxs : List ℕ)
    (j : ℕ) (hj : j < (remainingIdx rows.length idxs).length) :
    (npDelete rows idxs).getD j default =
      rows.getD ((remainingIdx rows.length idxs).getD j 0) default := by
  rw [npDelete, List.getD_eq_getElem _ _ (by simpa using hj),
    List.getD_eq_getElem _ _ hj, List.getElem_map]

theorem npDelete_mem {α : Type} [Inhabited α] (rows : List α) (idxs : List ℕ)
    (r : α) (hr : r ∈ npDelete rows idxs) : r ∈ rows := by
  rw [npDelete, List.mem_map] at hr
  obtain ⟨i, hi, rfl⟩ := hr
  have hilt : i < rows.length := remainingIdx_lt _ _ _ hi
  rw [List.getD_eq_getElem _ _ hilt]
  exact List.getElem_mem _

theorem sum_range_split (n : ℕ) (idxs : List ℕ) (hnd : idxs.Nodup)
    (hlt : ∀ i ∈ idxs, i < n) (v : ℕ → ℚ) :
    ((List.range n).map v).sum = (idxs.map v).sum + ((remainingIdx n idxs).map v).sum := by
  classical
  have hrem_nodup : (remainingIdx n idxs).Nodup := List.Nodup.filter _ (List.nodup_range n)
  rw [← List.sum_toFinset _ hnd, ← List.sum_toFinset _ hrem_nodup, sum_map_range]
  have h1 : idxs.toFinset = (Finset.range n).filter (fun i => i ∈ idxs) := by
    ext i
    simp only [List.mem_toFinset, Finset.mem_filter, Finset.mem_range]
    exact ⟨fun h => ⟨hlt i h, h⟩, fun h => h.2⟩
  have h2 : (remainingIdx n idxs).toFinset =
      (Finset.range n).filter (fun i => ¬ i ∈ idxs) := by
    ext i
    simp [remainingIdx, List.mem_filter, List.mem_range]
  rw [h1, h2, Finset.sum_filter_add_sum_filter_not]

theorem sum_map_add {α : Type} (l : List α) (f g : α → ℚ) :
    (l.map (fun x => f x + g x)).sum = (l.map f).sum + (l.map g).sum := by
  induction l with
  | nil => simp
  | cons a as ih => simp [ih]; ring

theorem map_sum_eq_range_list {α : Type} (l : List α) (f : α → ℚ) (d : α) :
    (l.map f).sum = ((List.range l.length).map (fun u => f (l.getD u d))).sum := by
  congr 1
  apply List.ext_getElem (by simp)
  intro u h1 h2
  rw [List.getElem_map, List.getElem_map, List.getElem_range,
    List.getD_eq_getElem _ _ (by simpa using h1)]

theorem getD_map_lt {α β : Type} (f : α → β) (l : List α) (j : ℕ) (hj : j < l.length)
    (d : α) (d' : β) : (l.map f).getD j d' = f (l.getD j d) := by
  rw [List.getD_eq_getElem _ _ (by simpa using hj), List.getD_eq_getElem _ _ hj,
    List.getElem_map]

theorem calc_cell_area_ne_zero (G : ℚ → ℚ) (c : Cell)
    (hmono : StrictMonoOn G (Set.Icc (-90 : ℚ) 90)) (hc : validCell c) :
    calc_cell_area G c ≠ 0 := by
  obtain ⟨hlon, hlat, hlo, hhi⟩ := hc
  have h1 : c.lat1 ∈ Set.Icc (-90 : ℚ) 90 := ⟨hlo, le_of_lt (lt_of_lt_of_le hlat hhi)⟩
  have h2 : c.lat2 ∈ Set.Icc (-90 : ℚ) 90 := ⟨le_of_lt (lt_of_le_of_lt hlo hlat), hhi⟩
  have hG : G c.lat1 < G c.lat2 := hmono h1 h2 hlat
  have : 0 < (c.lon2 - c.lon1) * (G c.lat2 - G c.lat1) :=
    mul_pos (by linarith) (by linarith)
  rw [calc_cell_area, geographical_area_from_bounds]
  exact ne_of_gt this

theorem interiorDisjoint_symm {t t' : Cell} (h : interiorDisjoint t t') :
    interiorDisjoint t' t := fun p hp => h p ⟨hp.2, hp.1⟩

theorem range_filter_eq_singleton {p : ℕ → Bool} {n i : ℕ} (hi : i < n)
    (hp : ∀ j < n, (p j = true ↔ j = i)) : (List.range n).filter p = [i] := by
  induction n with
  | zero => omega
  | succ m ih =>
    rw [List.range_succ, List.filter_append]
    rcases Nat.lt_succ_iff_lt_or_eq.mp hi with him | rfl
    · rw [ih him (fun j hj => hp j (by omega))]
      have : p m = false := by
        rcases Bool.eq_false_or_eq_true (p m) with h | h
        · exact absurd ((hp m (by omega)).1 h) (by omega)
        · exact h
      simp [this]
    · have hnil : (List.range i).filter p = [] := by
        rw [List.filter_eq_nil_iff]
        intro a ha
        have : a < i := List.mem_range.mp ha
        rcases Bool.eq_false_or_eq_true (p a) with h | h
        · exact absurd ((hp a (by omega)).1 h) (by omega)
        · simp [h]
      rw [hnil]
      simp [(hp i (by omega)).2 rfl]

theorem list_eq_replicate_zero {l : List ℚ} {m : ℕ} (h : l.length = m)
    (hk : ∀ k, l.getD k 0 = 0) : l = List.replicate m 0 := by
  apply List.ext_getElem (by simp [h])
  intro k hk1 hk2
  have := hk k
  rw [List.getD_eq_getElem _ _ hk1] at this
  rw [this, List.getElem_replicate]

theorem exact_rows_length (fg : List Cell) (fr : List (List ℚ)) (t : Cell)
    (hu : ∀ r ∈ fr, r.length = (fr.headD []).length) (hlen : fr.length = fg.length) :
    ∀ r ∈ (Fecsep._map_exact_inside_cells fg fr t).2.map (fun i => fr.getD i []),
      r.length = (fr.headD []).length := by
  intro r hr
  rw [List.mem_map] at hr
  obtain ⟨i, hi, rfl⟩ := hr
  have hilt : i < fr.length := by
    rw [hlen]
    exact ((exact_cells_mem fg fr t i).1 hi).1
  have : fr.getD i [] ∈ fr := by
    rw [List.getD_eq_getElem _ _ hilt]
    exact List.getElem_mem _
  exact hu _ this

theorem exact_row_length (fg : List Cell) (fr : List (List ℚ)) (t : Cell)
    (hu : ∀ r ∈ fr, r.length = (fr.headD []).length) (hlen : fr.length = fg.length) :
    (Fecsep._map_exact_inside_cells fg fr t).1.length = (fr.headD []).length := by
  rw [exact_rate_eq_vecSum]
  exact vecSum_length _ _ (exact_rows_length fg fr t hu hlen)

theorem exact_row_getD (fg : List Cell) (fr : List (List ℚ)) (t : Cell)
    (hu : ∀ r ∈ fr, r.length = (fr.headD []).length) (hlen : fr.length = fg.length)
    (k : ℕ) :
    (Fecsep._map_exact_inside_cells fg fr t).1.getD k 0 =
      ((Fecsep._map_exact_inside_cells fg fr t).2.map
        (fun i => (fr.getD i []).getD k 0)).sum := by
  rw [exact_rate_eq_vecSum, vecSum_getD _ _ (exact_rows_length fg fr t hu hlen) k,
    List.map_map]
  rfl

theorem npDelete_rates_length (fg : List Cell) (fr : List (List ℚ)) (idxs : List ℕ)
    (hlen : fr.length = fg.length) :
    ((npDelete fg idxs).map create_polygon).length = (npDelete fr idxs).length := by
  rw [List.length_map, npDelete_length, npDelete_length, hlen]

theorem targetCellRow_length (G : ℚ → ℚ) (tg fg : List Cell) (fr : List (List ℚ))
    (t : Cell) (hu : ∀ r ∈ fr, r.length = (fr.headD []).length)
    (hlen : fr.length = fg.length) (hM : 0 < (fr.headD []).length) :
    (targetCellRow G tg fg fr t).length = (fr.headD []).length := by
  simp only [targetCellRow]
  have hr : ∀ r ∈ npDelete fr (consumedJoin fg fr tg),
      r.length = (fr.headD []).length :=
    fun r hr => hu r (npDelete_mem _ _ _ hr)
  have hpad := mapOverlapping_padded_length G
    ((npDelete fg (consumedJoin fg fr tg)).map create_polygon)
    ((npDelete fg (consumedJoin fg fr tg)).map (calc_cell_area G))
    (npDelete fr (consumedJoin fg fr tg)) (create_polygon t) _ hr
    (le_of_eq (npDelete_rates_length fg fr _ hlen)) hM
  have hex := exact_row_length fg fr t hu hlen
  rw [npAdd_eq_len _ _ (by rw [hpad, hex]), List.length_zipWith, hpad, hex, min_self]

theorem targetCellRow_getD (G : ℚ → ℚ) (tg fg : List Cell) (fr : List (List ℚ))
    (t : Cell) (hu : ∀ r ∈ fr, r.length = (fr.headD []).length)
    (hlen : fr.length = fg.length) (hM : 0 < (fr.headD []).length) (k : ℕ) :
    (targetCellRow G tg fg fr t).getD k 0 =
      overlapScalarN G ((npDelete fg (consumedJoin fg fr tg)).map create_polygon)
        ((npDelete fg (consumedJoin fg fr tg)).map (calc_cell_area G))
        (npDelete fr (consumedJoin fg fr tg)) (create_polygon t) k
        ((npDelete fg (consumedJoin fg fr tg)).map create_polygon).length
      + ((Fecsep._map_exact_inside_cells fg fr t).2.map
          (fun i => (fr.getD i []).getD k 0)).sum := by
  simp only [targetCellRow]
  have hr : ∀ r ∈ npDelete fr (consumedJoin fg fr tg),
      r.length = (fr.headD []).length :=
    fun r hr => hu r (npDelete_mem _ _ _ hr)
  have hpad := mapOverlapping_padded_length G
    ((npDelete fg (consumedJoin fg fr tg)).map create_polygon)
    ((npDelete fg (consumedJoin fg fr tg)).map (calc_cell_area G))
    (npDelete fr (consumedJoin fg fr tg)) (create_polygon t) _ hr
    (le_of_eq (npDelete_rates_length fg fr _ hlen)) hM
  have hex := exact_row_length fg fr t hu hlen
  rw [npAdd_eq_len _ _ (by rw [hpad, hex]), zipWith_add_getD _ _ (by rw [hpad, hex]) k]
  congr 1
  · exact mapOverlapping_padded_getD G _ _ _ _ _ hr
      (le_of_eq (npDelete_rates_length fg fr _ hlen)) k
  · exact exact_row_getD fg fr t hu hlen k

theorem exact_cells_nil (fg : List Cell) (fr : List (List ℚ)) (t : Cell)
    (h : ∀ s ∈ fg, ¬ containedP s t) :
    (Fecsep._map_exact_inside_cells fg fr t).2 = [] := by
  rw [List.eq_nil_iff_forall_not_mem]
  intro i hi
  obtain ⟨hilt, hc⟩ := (exact_cells_mem fg fr t i).1 hi
  refine h (fg.getD i default) ?_ hc
  rw [List.getD_eq_getElem _ _ hilt]
  exact List.getElem_mem _

theorem sorted_getD_lt (xs : List ℚ) (hxs : xs.Sorted (· < ·)) {k l : ℕ}
    (hkl : k < l) (hl : l < xs.length) : xs.getD k 0 < xs.getD l 0 := by
  rw [List.getD_eq_getElem _ _ (lt_trans hkl hl), List.getD_eq_getElem _ _ hl]
  have := List.Sorted.get_strictMono hxs
    (show (⟨k, lt_trans hkl hl⟩ : Fin xs.length) < ⟨l, hl⟩ from hkl)
  simpa [List.get_eq_getElem] using this

theorem sorted_getD_le (xs : List ℚ) (hxs : xs.Sorted (· < ·)) {k l : ℕ}
    (hkl : k ≤ l) (hl : l < xs.length) : xs.getD k 0 ≤ xs.getD l 0 := by
  rcases Nat.eq_or_lt_of_le hkl with rfl | h
  · exact le_refl _
  · exact le_of_lt (sorted_getD_lt xs hxs h hl)

theorem mem_getD_index (xs : List ℚ) {a : ℚ} (ha : a ∈ xs) :
    ∃ k, k < xs.length ∧ xs.getD k 0 = a := by
  obtain ⟨⟨k, hk⟩, hget⟩ := List.mem_iff_get.mp ha
  refine ⟨k, hk, ?_⟩
  rw [List.getD_eq_getElem _ _ hk]
  exact hget

theorem cut_succ_le_iff (xs : List ℚ) (hxs : xs.Sorted (· < ·)) {b : ℚ} (hb : b ∈ xs)
    {k : ℕ} (hk : k < xs.length - 1) :
    xs.getD (k + 1) 0 ≤ b ↔ xs.getD k 0 < b := by
  have hk1 : k + 1 < xs.length := by omega
  obtain ⟨ib, hib, rfl⟩ := mem_getD_index xs hb
  constructor
  · intro h
    exact lt_of_lt_of_le (sorted_getD_lt xs hxs (Nat.lt_succ_self k) hk1) h
  · intro h
    by_contra hcon
    push_neg at hcon
    have h1 : ib < k + 1 := by
      by_contra h2
      push_neg at h2
      exact absurd (sorted_getD_le xs hxs h2 hib) (not_le.mpr hcon)
    have h2 : xs.getD ib 0 ≤ xs.getD k 0 := sorted_getD_le xs hxs (by omega) (by omega)
    exact absurd h (not_lt.mpr h2)

theorem telescope_cut_sum (xs : List ℚ) (hxs : xs.Sorted (· < ·)) (f : ℚ → ℚ)
    {a b : ℚ} (ha : a ∈ xs) (hb : b ∈ xs) (hab : a ≤ b) :
    (∑ k ∈ Finset.range (xs.length - 1),
      if a ≤ xs.getD k 0 ∧ xs.getD (k + 1) 0 ≤ b
      then f (xs.getD (k + 1) 0) - f (xs.getD k 0) else 0) = f b - f a := by
  obtain ⟨ia, hia, rfl⟩ := mem_getD_index xs ha
  obtain ⟨ib, hib, rfl⟩ := mem_getD_index xs hb
  have hiaib : ia ≤ ib := by
    by_contra h
    push_neg at h
    exact absurd hab (not_le.mpr (sorted_getD_lt xs hxs h hia))
  have hcong : ∀ k ∈ Finset.range (xs.length - 1),
      (if xs.getD ia 0 ≤ xs.getD k 0 ∧ xs.getD (k + 1) 0 ≤ xs.getD ib 0
        then f (xs.getD (k + 1) 0) - f (xs.getD k 0) else 0) =
      (if k ∈ Finset.Ico ia ib
        then f (xs.getD (k + 1) 0) - f (xs.getD k 0) else 0) := by
    intro k hk
    rw [Finset.mem_range] at hk
    have hk1 : k + 1 < xs.length := by omega
    refine if_congr ?_ rfl rfl
    rw [Finset.mem_Ico]
    constructor
    · rintro ⟨h1, h2⟩
      constructor
      · by_contra hc
        push_neg at hc
        exact absurd h1 (not_le.mpr (sorted_getD_lt xs hxs hc (by omega)))
      · by_contra hc
        push_neg at hc
        have h3 : xs.getD ib 0 ≤ xs.getD k 0 := sorted_getD_le xs hxs hc (by omega)
        have h4 : xs.getD k 0 < xs.getD (k + 1) 0 :=
          sorted_getD_lt xs hxs (Nat.lt_succ_self _) hk1
        linarith
    · rintro ⟨h1, h2⟩
      exact ⟨sorted_getD_le xs hxs h1 (by omega), sorted_getD_le xs hxs h2 hib⟩
  rw [Finset.sum_congr rfl hcong, Finset.sum_ite_mem]
  have hinter : Finset.range (xs.length - 1) ∩ Finset.Ico ia ib = Finset.Ico ia ib := by
    apply Finset.inter_eq_right.mpr
    intro k hk
    rw [Finset.mem_Ico] at hk
    rw [Finset.mem_range]
    omega
  rw [hinter, Finset.sum_Ico_eq_sub _ hiaib,
    Finset.sum_range_sub (fun k => f (xs.getD k 0)),
    Finset.sum_range_sub (fun k => f (xs.getD k 0))]
  ring

theorem grid_rect_expansion (G : ℚ → ℚ) (xs ys : List ℚ) (hxs : xs.Sorted (· < ·))
    (hys : ys.Sorted (· < ·)) {a b c d : ℚ} (ha : a ∈ xs) (hb : b ∈ xs)
    (hc : c ∈ ys) (hd : d ∈ ys) (hab : a ≤ b) (hcd : c ≤ d) :
    (b - a) * (G d - G c) =
      ∑ k ∈ Finset.range (xs.length - 1), ∑ l ∈ Finset.range (ys.length - 1),
        if (a ≤ xs.getD k 0 ∧ xs.getD (k + 1) 0 ≤ b) ∧
            (c ≤ ys.getD l 0 ∧ ys.getD (l + 1) 0 ≤ d)
        then (xs.getD (k + 1) 0 - xs.getD k 0) *
          (G (ys.getD (l + 1) 0) - G (ys.getD l 0))
        else 0 := by
  rw [← telescope_cut_sum xs hxs (fun x => x) ha hb hab,
    ← telescope_cut_sum ys hys G hc hd hcd, Finset.sum_mul_sum]
  refine Finset.sum_congr rfl fun k _ => Finset.sum_congr rfl fun l _ => ?_
  by_cases hP : a ≤ xs.getD k 0 ∧ xs.getD (k + 1) 0 ≤ b
  · by_cases hQ : c ≤ ys.getD l 0 ∧ ys.getD (l + 1) 0 ≤ d
    · rw [if_pos hP, if_pos hQ, if_pos ⟨hP, hQ⟩]
    · rw [if_pos hP, if_neg hQ, if_neg (fun h => hQ h.2), mul_zero]
  · by_cases hQ : c ≤ ys.getD l 0 ∧ ys.getD (l + 1) 0 ≤ d
    · rw [if_neg hP, if_pos hQ, if_neg (fun h => hP h.1), zero_mul]
    · rw [if_neg hP, if_neg hQ, if_neg (fun h => hP h.1), zero_mul]

theorem rectIntersects_iff (a b : Cell) :
    rectIntersects a b = true ↔
      (a.lon1 ≤ b.lon2 ∧ b.lon1 ≤ a.lon2 ∧ a.lat1 ≤ b.lat2 ∧ b.lat1 ≤ a.lat2) := by
  simp [rectIntersects, and_assoc]

theorem max_mem_list {xs : List ℚ} {a b : ℚ} (ha : a ∈ xs) (hb : b ∈ xs) :
    max a b ∈ xs := by
  rcases max_choice a b with h | h <;> rw [h] <;> assumption

theorem min_mem_list {xs : List ℚ} {a b : ℚ} (ha : a ∈ xs) (hb : b ∈ xs) :
    min a b ∈ xs := by
  rcases min_choice a b with h | h <;> rw [h] <;> assumption

theorem cell_term_expansion (G : ℚ → ℚ) (xs ys : List ℚ)
    (hxs : xs.Sorted (· < ·)) (hys : ys.Sorted (· < ·)) (s t : Cell)
    (hs1 : s.lon1 ∈ xs) (hs2 : s.lon2 ∈ xs) (hs3 : s.lat1 ∈ ys) (hs4 : s.lat2 ∈ ys)
    (ht1 : t.lon1 ∈ xs) (ht2 : t.lon2 ∈ xs) (ht3 : t.lat1 ∈ ys) (ht4 : t.lat2 ∈ ys)
    (hso : s.lon1 ≤ s.lon2 ∧ s.lat1 ≤ s.lat2)
    (hto : t.lon1 ≤ t.lon2 ∧ t.lat1 ≤ t.lat2) :
    (if rectIntersects t s then
      geographical_area_from_bounds G (rectIntersection t s).lon1
        (rectIntersection t s).lat1 (rectIntersection t s).lon2
        (rectIntersection t s).lat2
    else 0) =
      ∑ k ∈ Finset.range (xs.length - 1), ∑ l ∈ Finset.range (ys.length - 1),
        if memHO (xs.getD k 0, ys.getD l 0) t ∧ memHO (xs.getD k 0, ys.getD l 0) s
        then (xs.getD (k + 1) 0 - xs.getD k 0) *
          (G (ys.getD (l + 1) 0) - G (ys.getD l 0))
        else 0 := by
  cases hint : rectIntersects t s with
  | true =>
    obtain ⟨hi1, hi2, hi3, hi4⟩ := (rectIntersects_iff t s).1 hint
    have hab : max t.lon1 s.lon1 ≤ min t.lon2 s.lon2 :=
      max_le (le_min hto.1 hi1) (le_min hi2 hso.1)
    have hcd : max t.lat1 s.lat1 ≤ min t.lat2 s.lat2 :=
      max_le (le_min hto.2 hi3) (le_min hi4 hso.2)
    rw [if_pos rfl, geographical_area_from_bounds]
    simp only [rectIntersection]
    rw [grid_rect_expansion G xs ys hxs hys (max_mem_list ht1 hs1)
      (min_mem_list ht2 hs2) (max_mem_list ht3 hs3) (min_mem_list ht4 hs4) hab hcd]
    refine Finset.sum_congr rfl fun k hk => Finset.sum_congr rfl fun l hl => ?_
    rw [Finset.mem_range] at hk hl
    refine if_congr ?_ rfl rfl
    rw [cut_succ_le_iff xs hxs (min_mem_list ht2 hs2) hk,
      cut_succ_le_iff ys hys (min_mem_list ht4 hs4) hl,
      max_le_iff, max_le_iff, lt_min_iff, lt_min_iff]
    unfold memHO
    dsimp only []
    tauto
  | false =>
    simp only [Bool.false_eq_true, if_false]
    symm
    refine Finset.sum_eq_zero fun k _ => Finset.sum_eq_zero fun l _ => ?_
    refine if_neg ?_
    rintro ⟨⟨ha1, ha2, ha3, ha4⟩, ⟨hb1, hb2, hb3, hb4⟩⟩
    have : rectIntersects t s = true :=
      (rectIntersects_iff t s).2
        ⟨le_of_lt (lt_of_le_of_lt ha1 hb2), le_of_lt (lt_of_le_of_lt hb1 ha2),
          le_of_lt (lt_of_le_of_lt ha3 hb4), le_of_lt (lt_of_le_of_lt hb3 ha4)⟩
    rw [hint] at this
    exact Bool.false_ne_true this

theorem hoDisjoint_symm {t t' : Cell} (h : hoDisjoint t t') : hoDisjoint t' t :=
  fun p hp => h p ⟨hp.2, hp.1⟩

theorem pairwise_getD_hoDisjoint (T : List Cell) (hT : T.Pairwise hoDisjoint)
    {i j : ℕ} (hi : i < T.length) (hj : j < T.length) (hne : i ≠ j) :
    hoDisjoint (T.getD i default) (T.getD j default) := by
  rw [List.getD_eq_getElem _ _ hi, List.getD_eq_getElem _ _ hj]
  rcases Nat.lt_or_ge i j with h | h
  · exact List.pairwise_iff_get.mp hT ⟨i, hi⟩ ⟨j, hj⟩ h
  · have hji : j < i := by omega
    exact hoDisjoint_symm (List.pairwise_iff_get.mp hT ⟨j, hj⟩ ⟨i, hi⟩ hji)

theorem unique_cover_sum (T : List Cell) (hdisj : T.Pairwise hoDisjoint)
    (p : ℚ × ℚ) (g : ℚ) (s : Cell)
    (hcover : memHO p s → ∃ t ∈ T, memHO p t) :
    (∑ u ∈ Finset.range T.length,
      if memHO p (T.getD u default) ∧ memHO p s then g else 0) =
    (if memHO p s then g else 0) := by
  by_cases hs : memHO p s
  · rw [if_pos hs]
    obtain ⟨t0, ht0T, ht0⟩ := hcover hs
    obtain ⟨⟨u0, hu0⟩, hget⟩ := List.mem_iff_get.mp ht0T
    have hA0 : memHO p (T.getD u0 default) := by
      rw [List.getD_eq_getElem _ _ hu0]
      have he : T[u0] = t0 := hget
      rw [he]
      exact ht0
    rw [Finset.sum_congr rfl (fun u _ => if_congr (and_iff_left hs) rfl rfl),
      ← Finset.sum_filter]
    have hfilter : (Finset.range T.length).filter
        (fun u => memHO p (T.getD u default)) = {u0} := by
      apply Finset.eq_singleton_iff_unique_mem.mpr
      constructor
      · rw [Finset.mem_filter, Finset.mem_range]
        exact ⟨hu0, hA0⟩
      · intro x hx
        rw [Finset.mem_filter, Finset.mem_range] at hx
        by_contra hne
        exact pairwise_getD_hoDisjoint T hdisj hx.1 hu0 hne p ⟨hx.2, hA0⟩
    rw [hfilter, Finset.sum_singleton]
  · rw [if_neg hs]
    exact Finset.sum_eq_zero fun u _ => if_neg (fun h => hs h.2)

theorem mem_lonCuts (s : Cell) (T : List Cell) (x : ℚ)
    (hx : x = s.lon1 ∨ x = s.lon2 ∨ (∃ t ∈ T, x = t.lon1) ∨ (∃ t ∈ T, x = t.lon2)) :
    x ∈ (lonCuts s T).sort (· ≤ ·) := by
  rw [Finset.mem_sort]
  simp only [lonCuts, Finset.mem_insert, Finset.mem_union, List.mem_toFinset,
    List.mem_map]
  rcases hx with h | h | ⟨t, ht, h⟩ | ⟨t, ht, h⟩
  · exact Or.inl h
  · exact Or.inr (Or.inl h)
  · exact Or.inr (Or.inr (Or.inl ⟨t, ht, h.symm⟩))
  · exact Or.inr (Or.inr (Or.inr ⟨t, ht, h.symm⟩))

theorem mem_latCuts (s : Cell) (T : List Cell) (x : ℚ)
    (hx : x = s.lat1 ∨ x = s.lat2 ∨ (∃ t ∈ T, x = t.lat1) ∨ (∃ t ∈ T, x = t.lat2)) :
    x ∈ (latCuts s T).sort (· ≤ ·) := by
  rw [Finset.mem_sort]
  simp only [latCuts, Finset.mem_insert, Finset.mem_union, List.mem_toFinset,
    List.mem_map]
  rcases hx with h | h | ⟨t, ht, h⟩ | ⟨t, ht, h⟩
  · exact Or.inl h
  · exact Or.inr (Or.inl h)
  · exact Or.inr (Or.inr (Or.inl ⟨t, ht, h.symm⟩))
  · exact Or.inr (Or.inr (Or.inr ⟨t, ht, h.symm⟩))

theorem tiling_area_sum (G : ℚ → ℚ) (s : Cell) (T : List Cell)
    (hso : s.lon1 ≤ s.lon2 ∧ s.lat1 ≤ s.lat2)
    (hTo : ∀ t ∈ T, t.lon1 ≤ t.lon2 ∧ t.lat1 ≤ t.lat2)
    (hdisj : T.Pairwise hoDisjoint)
    (hcover : ∀ p : ℚ × ℚ, memHO p s → ∃ t ∈ T, memHO p t) :
    (∑ u ∈ Finset.range T.length,
      if rectIntersects (T.getD u default) s then
        geographical_area_from_bounds G
          (rectIntersection (T.getD u default) s).lon1
          (rectIntersection (T.getD u default) s).lat1
          (rectIntersection (T.getD u default) s).lon2
          (rectIntersection (T.getD u default) s).lat2
      else 0) = (s.lon2 - s.lon1) * (G s.lat2 - G s.lat1) := by
  have hxs : ((lonCuts s T).sort (· ≤ ·)).Sorted (· < ·) := Finset.sort_sorted_lt _
  have hys : ((latCuts s T).sort (· ≤ ·)).Sorted (· < ·) := Finset.sort_sorted_lt _
  have hterm : ∀ u ∈ Finset.range T.length,
      (if rectIntersects (T.getD u default) s then
        geographical_area_from_bounds G
          (rectIntersection (T.getD u default) s).lon1
          (rectIntersection (T.getD u default) s).lat1
          (rectIntersection (T.getD u default) s).lon2
          (rectIntersection (T.getD u default) s).lat2
      else 0) =
      ∑ k ∈ Finset.range (((lonCuts s T).sort (· ≤ ·)).length - 1),
        ∑ l ∈ Finset.range (((latCuts s T).sort (· ≤ ·)).length - 1),
          if memHO (((lonCuts s T).sort (· ≤ ·)).getD k 0,
                ((latCuts s T).sort (· ≤ ·)).getD l 0) (T.getD u default) ∧
              memHO (((lonCuts s T).sort (· ≤ ·)).getD k 0,
                ((latCuts s T).sort (· ≤ ·)).getD l 0) s
          then (((lonCuts s T).sort (· ≤ ·)).getD (k + 1) 0 -
              ((lonCuts s T).sort (· ≤ ·)).getD k 0) *
            (G (((latCuts s T).sort (· ≤ ·)).getD (l + 1) 0) -
              G (((latCuts s T).sort (· ≤ ·)).getD l 0))
          else 0 := by
    intro u hu
    rw [Finset.mem_range] at hu
    have htT : T.getD u default ∈ T := by
      rw [List.getD_eq_getElem _ _ hu]
      exact List.getElem_mem _
    exact cell_term_expansion G _ _ hxs hys s (T.getD u default)
      (mem_lonCuts s T _ (Or.inl rfl)) (mem_lonCuts s T _ (Or.inr (Or.inl rfl)))
      (mem_latCuts s T _ (Or.inl rfl)) (mem_latCuts s T _ (Or.inr (Or.inl rfl)))
      (mem_lonCuts s T _ (Or.inr (Or.inr (Or.inl ⟨_, htT, rfl⟩))))
      (mem_lonCuts s T _ (Or.inr (Or.inr (Or.inr ⟨_, htT, rfl⟩))))
      (mem_latCuts s T _ (Or.inr (Or.inr (Or.inl ⟨_, htT, rfl⟩))))
      (mem_latCuts s T _ (Or.inr (Or.inr (Or.inr ⟨_, htT, rfl⟩))))
      hso (hTo _ htT)
  rw [Finset.sum_congr rfl hterm, Finset.sum_comm]
  rw [Finset.sum_congr rfl (fun k _ => Finset.sum_comm)]
  rw [Finset.sum_congr rfl (fun k _ => Finset.sum_congr rfl (fun l _ =>
    unique_cover_sum T hdisj _ _ s (hcover _)))]
  rw [grid_rect_expansion G ((lonCuts s T).sort (· ≤ ·)) ((latCuts s T).sort (· ≤ ·))
    hxs hys (mem_lonCuts s T _ (Or.inl rfl)) (mem_lonCuts s T _ (Or.inr (Or.inl rfl)))
    (mem_latCuts s T _ (Or.inl rfl)) (mem_latCuts s T _ (Or.inr (Or.inl rfl)))
    hso.1 hso.2]
  refine Finset.sum_congr rfl fun k hk => Finset.sum_congr rfl fun l hl => ?_
  rw [Finset.mem_range] at hk hl
  refine if_congr ?_ rfl rfl
  rw [cut_succ_le_iff _ hxs (mem_lonCuts s T _ (Or.inr (Or.inl rfl))) hk,
    cut_succ_le_iff _ hys (mem_latCuts s T _ (Or.inr (Or.inl rfl))) hl]
  unfold memHO
  dsimp only []
  tauto

theorem overlap_sum_total (G : ℚ → ℚ) (tg fg : List Cell) (fr : List (List ℚ))
    (idxs : List ℕ) (k : ℕ)
    (hGmono : StrictMonoOn G (Set.Icc (-90 : ℚ) 90))
    (hv : ∀ s ∈ fg, validCell s) (hvt : ∀ t ∈ tg, validCell t)
    (htdisj : tg.Pairwise hoDisjoint)
    (hfoot : ∀ p : ℚ × ℚ, (∃ s ∈ fg, memHO p s) → (∃ t ∈ tg, memHO p t))
    (hlen : fr.length = fg.length) :
    (tg.map (fun t => overlapScalarN G
        ((npDelete fg idxs).map create_polygon)
        ((npDelete fg idxs).map (calc_cell_area G))
        (npDelete fr idxs) (create_polygon t) k
        ((npDelete fg idxs).map create_polygon).length)).sum
    = ((remainingIdx fr.length idxs).map
        (fun i => (fr.getD i []).getD k 0)).sum := by
  rw [map_sum_eq_range_list tg _ default, sum_map_range]
  simp only [overlapScalarN]
  rw [Finset.sum_comm]
  have hj : ∀ j ∈ Finset.range ((npDelete fg idxs).map create_polygon).length,
      (∑ u ∈ Finset.range tg.length,
        if rectIntersects (create_polygon (tg.getD u default))
            (((npDelete fg idxs).map create_polygon).getD j default) then
          ((npDelete fr idxs).getD j []).getD k 0 *
            (geographical_area_from_bounds G
              (rectIntersection (create_polygon (tg.getD u default))
                (((npDelete fg idxs).map create_polygon).getD j default)).lon1
              (rectIntersection (create_polygon (tg.getD u default))
                (((npDelete fg idxs).map create_polygon).getD j default)).lat1
              (rectIntersection (create_polygon (tg.getD u default))
                (((npDelete fg idxs).map create_polygon).getD j default)).lon2
              (rectIntersection (create_polygon (tg.getD u default))
                (((npDelete fg idxs).map create_polygon).getD j default)).lat2 /
              ((npDelete fg idxs).map (calc_cell_area G)).getD j 0)
        else 0) = ((npDelete fr idxs).getD j []).getD k 0 := by
    intro j hjm
    rw [Finset.mem_range, List.length_map] at hjm
    have hsj_lft : (npDelete fg idxs).getD j default ∈ npDelete fg idxs := by
      rw [List.getD_eq_getElem _ _ hjm]
      exact List.getElem_mem _
    have hsj_mem : (npDelete fg idxs).getD j default ∈ fg :=
      npDelete_mem fg idxs _ hsj_lft
    have hsv := hv _ hsj_mem
    have hpoly : (((npDelete fg idxs)).map create_polygon).getD j default =
        (npDelete fg idxs).getD j default :=
      getD_map_lt create_polygon _ j hjm default default
    have harea : ((npDelete fg idxs).map (calc_cell_area G)).getD j 0 =
        calc_cell_area G ((npDelete fg idxs).getD j default) :=
      getD_map_lt (calc_cell_area G) _ j hjm default 0
    have hco : ∀ u ∈ Finset.range tg.length,
        (if rectIntersects (create_polygon (tg.getD u default))
            (((npDelete fg idxs).map create_polygon).getD j default) then
          ((npDelete fr idxs).getD j []).getD k 0 *
            (geographical_area_from_bounds G
              (rectIntersection (create_polygon (tg.getD u default))
                (((npDelete fg idxs).map create_polygon).getD j default)).lon1
              (rectIntersection (create_polygon (tg.getD u default))
                (((npDelete fg idxs).map create_polygon).getD j default)).lat1
              (rectIntersection (create_polygon (tg.getD u default))
                (((npDelete fg idxs).map create_polygon).getD j default)).lon2
              (rectIntersection (create_polygon (tg.getD u default))
                (((npDelete fg idxs).map create_polygon).getD j default)).lat2 /
              ((npDelete fg idxs).map (calc_cell_area G)).getD j 0)
        else 0) =
        ((npDelete fr idxs).getD j []).getD k 0 *
          ((if rectIntersects (tg.getD u default) ((npDelete fg idxs).getD j default)
            then geographical_area_from_bounds G
              (rectIntersection (tg.getD u default)
                ((npDelete fg idxs).getD j default)).lon1
              (rectIntersection (tg.getD u default)
                ((npDelete fg idxs).getD j default)).lat1
              (rectIntersection (tg.getD u default)
                ((npDelete fg idxs).getD j default)).lon2
              (rectIntersection (tg.getD u default)
                ((npDelete fg idxs).getD j default)).lat2
            else 0) /
            calc_cell_area G ((npDelete fg idxs).getD j default)) := by
      intro u _
      rw [hpoly, harea]
      simp only [create_polygon]
      by_cases hP : rectIntersects (tg.getD u default)
          ((npDelete fg idxs).getD j default) = true
      · rw [if_pos hP, if_pos hP]
      · rw [if_neg hP, if_neg hP, zero_div, mul_zero]
    rw [Finset.sum_congr rfl hco, ← Finset.mul_sum, ← Finset.sum_div]
    rw [tiling_area_sum G ((npDelete fg idxs).getD j default) tg
      ⟨le_of_lt hsv.1, le_of_lt hsv.2.1⟩
      (fun t ht => ⟨le_of_lt (hvt t ht).1, le_of_lt (hvt t ht).2.1⟩)
      htdisj
      (fun p hp => hfoot p ⟨_, hsj_mem, hp⟩)]
    have hne := calc_cell_area_ne_zero G ((npDelete fg idxs).getD j default) hGmono
      (hv _ hsj_mem)
    rw [calc_cell_area, geographical_area_from_bounds] at hne ⊢
    rw [div_self hne, mul_one]
  rw [Finset.sum_congr rfl hj, List.length_map]
  have hlen2 : (npDelete fg idxs).length = (npDelete fr idxs).length := by
    rw [npDelete_length, npDelete_length, hlen]
  rw [hlen2, ← sum_map_range]
  congr 1
  apply List.ext_getElem
  · simp [npDelete_length]
  · intro j h1 h2
    rw [List.getElem_map, List.getElem_map, List.getElem_range]
    have hjlt : j < (remainingIdx fr.length idxs).length := by
      simpa using h2
    congr 1
    have hd := npDelete_getD fr idxs j hjlt
    rw [List.getD_eq_getElem _ _ hjlt] at hd
    exact hd

theorem exact_sum_total (fg : List Cell) (fr : List (List ℚ)) (tg : List Cell)
    (k : ℕ) :
    (tg.map (fun t => ((Fecsep._map_exact_inside_cells fg fr t).2.map
        (fun i => (fr.getD i []).getD k 0)).sum)).sum =
    ((consumedJoin fg fr tg).map (fun i => (fr.getD i []).getD k 0)).sum := by
  rw [consumedJoin, List.map_flatten, List.sum_flatten, List.map_map, List.map_map]
  rfl

theorem list_eq_of_getD {l1 l2 : List ℚ} (h : l1.length = l2.length)
    (hk : ∀ k, l1.getD k 0 = l2.getD k 0) : l1 = l2 := by
  apply List.ext_getElem h
  intro k hk1 hk2
  have := hk k
  rw [List.getD_eq_getElem _ _ hk1, List.getD_eq_getElem _ _ hk2] at this
  exact this

theorem flatten_map_singleton {α : Type} (l : List α) :
    (l.map (fun x => [x])).flatten = l := by
  induction l with
  | nil => rfl
  | cons a as ih => simp [ih]

theorem pairwise_getD_disjoint (P : List Cell) (hP : P.Pairwise interiorDisjoint)
    (i j : ℕ) (hi : i < P.length) (hj : j < P.length) (hne : i ≠ j) :
    interiorDisjoint (P.getD i default) (P.getD j default) := by
  rw [List.getD_eq_getElem _ _ hi, List.getD_eq_getElem _ _ hj]
  rcases Nat.lt_or_ge i j with h | h
  · exact List.pairwise_iff_get.mp hP ⟨i, hi⟩ ⟨j, hj⟩ h
  · have hji : j < i := by omega
    exact interiorDisjoint_symm (List.pairwise_iff_get.mp hP ⟨j, hj⟩ ⟨i, hi⟩ hji)

theorem identity_exact_cells (P : List Cell) (fr : List (List ℚ)) (i : ℕ)
    (hi : i < P.length) (hP : P.Pairwise interiorDisjoint)
    (hval : ∀ s ∈ P, s.lon1 < s.lon2 ∧ s.lat1 < s.lat2) :
    (Fecsep._map_exact_inside_cells P fr (P.getD i default)).2 = [i] := by
  apply range_filter_eq_singleton hi
  intro j hj
  constructor
  · intro hc
    have hmem : j ∈ (Fecsep._map_exact_inside_cells P fr (P.getD i default)).2 := by
      rw [show (Fecsep._map_exact_inside_cells P fr (P.getD i default)).2 =
        (List.range P.length).filter _ from rfl]
      exact List.mem_filter.mpr ⟨List.mem_range.mpr hj, hc⟩
    obtain ⟨-, hcont⟩ := (exact_cells_mem P fr (P.getD i default) j).1 hmem
    by_contra hne
    have hsj : P.getD j default ∈ P := by
      rw [List.getD_eq_getElem _ _ hj]
      exact List.getElem_mem _
    exact containedP_unique (hval _ hsj).1 (hval _ hsj).2
      (pairwise_getD_disjoint P hP j i hj hi hne)
      ⟨le_refl _, le_refl _, le_refl _, le_refl _⟩ hcont
  · rintro rfl
    have hmem : j ∈ (Fecsep._map_exact_inside_cells P fr (P.getD j default)).2 :=
      (exact_cells_mem P fr (P.getD j default) j).2
        ⟨hj, le_refl _, le_refl _, le_refl _, le_refl _⟩
    rw [show (Fecsep._map_exact_inside_cells P fr (P.getD j default)).2 =
      (List.range P.length).filter _ from rfl] at hmem
    exact (List.mem_filter.mp hmem).2

theorem identity_consumedJoin (P : List Cell) (fr : List (List ℚ))
    (hP : P.Pairwise interiorDisjoint)
    (hval : ∀ s ∈ P, s.lon1 < s.lon2 ∧ s.lat1 < s.lat2) :
    consumedJoin P fr P = List.range P.length := by
  rw [consumedJoin]
  have hmapeq : P.map (fun t => (Fecsep._map_exact_inside_cells P fr t).2) =
      (List.range P.length).map (fun i => [i]) := by
    apply List.ext_getElem (by simp)
    intro i h1 h2
    rw [List.getElem_map, List.getElem_map, List.getElem_range]
    have hid := identity_exact_cells P fr i (by simpa using h1) hP hval
    rwa [List.getD_eq_getElem _ _ (by simpa using h1)] at hid
  rw [hmapeq, flatten_map_singleton]

theorem remainingIdx_range_self (n : ℕ) : remainingIdx n (List.range n) = [] := by
  rw [remainingIdx, List.filter_eq_nil_iff]
  intro a ha
  simp [List.mem_range.mp ha]

/-- C10: for every input (target grid bounds, source grid bounds, source rate
matrix, worker count and machine cpu count), the remapping engine
`_forecast_mapping_generic` in `src/fecsep/utils.py` and the near-duplicate
copy in `src/code/utils.py` return equal rate matrices (the copies differ
only by a `print` statement). -/
theorem c10_duplicate_copy_equivalence (G : ℚ → ℚ) (cc : ℕ) (tg fg : List Cell)
    (fr : List (List ℚ)) (n : Option ℕ) :
    Fecsep._forecast_mapping_generic G cc tg fg fr n =
      CodeUtils._forecast_mapping_generic G cc tg fg fr n := rfl

/-- C4: the remap's output is independent of the worker count (the `ncpu`
argument, including the default `None` resolved to the machine's cpu count),
and whenever it returns a matrix, the row at index `i` is the row computed
for the target cell at index `i` of the target partition (`targetCellRow` is
a sequential per-target-cell function of the full inputs), independent of
worker scheduling or completion order. -/
theorem c4_determinism_under_parallelism (G : ℚ → ℚ) (cc cc' : ℕ)
    (tg fg : List Cell) (fr : List (List ℚ)) (n n' : Option ℕ) :
    Fecsep._forecast_mapping_generic G cc tg fg fr n =
      Fecsep._forecast_mapping_generic G cc' tg fg fr n' ∧
    (∀ out, Fecsep._forecast_mapping_generic G cc tg fg fr n = some out →
      out = tg.map (targetCellRow G tg fg fr)) := by
  by_cases htg : tg = []
  · subst htg
    exact ⟨rfl, fun out h => Option.noConfusion h⟩
  · rw [fmg_eq_map_targetCellRow G cc tg fg fr n htg,
      fmg_eq_map_targetCellRow G cc' tg fg fr n' htg]
    refine ⟨rfl, fun out h => ?_⟩
    injection h with h
    exact h.symm

theorem c4_witness :
    Fecsep._forecast_mapping_generic id 1 [⟨0, 0, 1, 1⟩] [⟨0, 0, 1, 1⟩] [[1]] (some 2) =
      Fecsep._forecast_mapping_generic id 7 [⟨0, 0, 1, 1⟩] [⟨0, 0, 1, 1⟩] [[1]] none ∧
    [[(1 : ℚ)]] = [(⟨0, 0, 1, 1⟩ : Cell)].map
      (targetCellRow id [⟨0, 0, 1, 1⟩] [⟨0, 0, 1, 1⟩] [[1]]) :=
  ⟨(c4_determinism_under_parallelism id 1 7 [⟨0, 0, 1, 1⟩] [⟨0, 0, 1, 1⟩] [[1]]
      (some 2) none).1,
   (c4_determinism_under_parallelism id 1 7 [⟨0, 0, 1, 1⟩] [⟨0, 0, 1, 1⟩] [[1]]
      (some 2) none).2 [[1]] (by
    norm_num [Fecsep._forecast_mapping_generic, Fecsep._map_exact_inside_cells,
      Fecsep._map_overlapping_cells, poolMap, chunkIntoSize, chunkGo, poolChunksize,
      npConcatenate, npDelete, remainingIdx, npAdd, create_polygon, calc_cell_area,
      geographical_area_from_bounds, rectIntersects, rectIntersection,
      List.range_succ, List.foldl, List.filter])⟩

/-- C8 counterexample: with a valid one-cell source forecast and an empty
target partition the remap does not succeed: `numpy.concatenate` on the
empty list of consumed-index arrays raises, modelled as `none`. -/
theorem c8_counterexample :
    Fecsep._forecast_mapping_generic id 1 [] [⟨0, 0, 1, 1⟩] [[2]] none = none := rfl

/-- C8 (amended): for every source forecast, calling the remap with an empty
target partition raises an error (the `numpy.concatenate` of the empty list
of per-target consumed-index arrays), modelled as `none`; it does not return
an empty forecast. -/
theorem c8_empty_target_raises (G : ℚ → ℚ) (cc : ℕ) (fg : List Cell)
    (fr : List (List ℚ)) (n : Option ℕ) :
    Fecsep._forecast_mapping_generic G cc [] fg fr n = none :=
  fmg_nil G cc fg fr n

/-- C9 counterexample: an input whose single source cell is malformed
(`lon_min > lon_max`) is not rejected: `forecast_mapping` processes it and
returns a rate matrix (the malformed cell is even consumed by the exact
phase under the closed-interval comparisons). -/
theorem c9_counterexample :
    (⟨5, 0, 1, 10⟩ : Cell).lon2 < (⟨5, 0, 1, 10⟩ : Cell).lon1 ∧
    Fecsep.forecast_mapping id 4 [⟨5, 0, 1, 10⟩] [[3]] [⟨0, 0, 10, 10⟩] none =
      some [[3]] := by
  refine ⟨by norm_num, ?_⟩
  norm_num [Fecsep.forecast_mapping, Fecsep._forecast_mapping_generic,
    Fecsep._map_exact_inside_cells, Fecsep._map_overlapping_cells, poolMap,
    chunkIntoSize, chunkGo, poolChunksize, npConcatenate, npDelete, remainingIdx,
    npAdd, create_polygon, calc_cell_area, geographical_area_from_bounds,
    rectIntersects, rectIntersection, List.range_succ, List.foldl, List.filter]

/-- C9 (amended): the remap performs no input validation at its boundary:
for every well-shaped input (rectangular rate matrix matching the source
partition length) with a non-empty target partition, it returns a result
without raising, regardless of malformed cell bounds; the only error the
engine itself raises is the empty-target `concatenate` failure. -/
theorem c9_no_validation (G : ℚ → ℚ) (cc : ℕ) (fg : List Cell)
    (fr : List (List ℚ)) (tg : List Cell) (n : Option ℕ) (htg : tg ≠ [])
    (_hlen : fr.length = fg.length)
    (_hu : ∀ r ∈ fr, r.length = (fr.headD []).length) :
    ∃ out, Fecsep.forecast_mapping G cc fg fr tg n = some out :=
  ⟨_, by rw [Fecsep.forecast_mapping]; exact fmg_eq_map_targetCellRow G cc tg fg fr n htg⟩

theorem c9_witness :
    ∃ out, Fecsep.forecast_mapping id 1 [⟨0, 0, 1, 1⟩] [[1]] [⟨0, 0, 1, 1⟩] none =
      some out :=
  c9_no_validation id 1 [⟨0, 0, 1, 1⟩] [[1]] [⟨0, 0, 1, 1⟩] none
    (by simp) (by simp) (by intro r hr; simp at hr; subst hr; rfl)

/-- C5: the exact-containment phase consumes source cell `i` into target `t`
iff `s.lon_min >= t.lon_min`, `s.lat_min >= t.lat_min`, `s.lon_max <=
t.lon_max` and `s.lat_max <= t.lat_max` (closed-interval comparisons), and
the partial rate returned for `t` is the elementwise sum of the rate vectors
of exactly the consumed source cells (same bin count as the rate matrix). -/
theorem c5_exact_containment_predicate (fg : List Cell) (fr : List (List ℚ))
    (t : Cell) (hu : ∀ r ∈ fr, r.length = (fr.headD []).length)
    (hlen : fr.length = fg.length) :
    (∀ i : ℕ, i ∈ (Fecsep._map_exact_inside_cells fg fr t).2 ↔
      (i < fg.length ∧ (fg.getD i default).lon1 ≥ t.lon1 ∧
        (fg.getD i default).lat1 ≥ t.lat1 ∧ (fg.getD i default).lon2 ≤ t.lon2 ∧
        (fg.getD i default).lat2 ≤ t.lat2)) ∧
    (Fecsep._map_exact_inside_cells fg fr t).1.length = (fr.headD []).length ∧
    (∀ k : ℕ, (Fecsep._map_exact_inside_cells fg fr t).1.getD k 0 =
      ((Fecsep._map_exact_inside_cells fg fr t).2.map
        (fun i => (fr.getD i []).getD k 0)).sum) := by
  have hrows : ∀ r ∈ (Fecsep._map_exact_inside_cells fg fr t).2.map
      (fun i => fr.getD i []), r.length = (fr.headD []).length := by
    intro r hr
    rw [List.mem_map] at hr
    obtain ⟨i, hi, rfl⟩ := hr
    have hilt : i < fr.length := by
      rw [hlen]
      exact ((exact_cells_mem fg fr t i).1 hi).1
    have : fr.getD i [] ∈ fr := by
      rw [List.getD_eq_getElem _ _ hilt]
      exact List.getElem_mem _
    exact hu _ this
  refine ⟨fun i => ?_, ?_, fun k => ?_⟩
  · simpa [containedP] using exact_cells_mem fg fr t i
  · rw [exact_rate_eq_vecSum]
    exact vecSum_length _ _ hrows
  · rw [exact_rate_eq_vecSum, vecSum_getD _ _ hrows k, List.map_map]
    rfl

theorem c5_witness :
    (0 ∈ (Fecsep._map_exact_inside_cells [⟨0, 0, 1, 1⟩] [[2]] ⟨0, 0, 1, 1⟩).2 ↔
      (0 < [(⟨0, 0, 1, 1⟩ : Cell)].length ∧
        ([(⟨0, 0, 1, 1⟩ : Cell)].getD 0 default).lon1 ≥ (⟨0, 0, 1, 1⟩ : Cell).lon1 ∧
        ([(⟨0, 0, 1, 1⟩ : Cell)].getD 0 default).lat1 ≥ (⟨0, 0, 1, 1⟩ : Cell).lat1 ∧
        ([(⟨0, 0, 1, 1⟩ : Cell)].getD 0 default).lon2 ≤ (⟨0, 0, 1, 1⟩ : Cell).lon2 ∧
        ([(⟨0, 0, 1, 1⟩ : Cell)].getD 0 default).lat2 ≤ (⟨0, 0, 1, 1⟩ : Cell).lat2)) ∧
    (Fecsep._map_exact_inside_cells [⟨0, 0, 1, 1⟩] [[2]] ⟨0, 0, 1, 1⟩).1.getD 0 0 =
      ((Fecsep._map_exact_inside_cells [⟨0, 0, 1, 1⟩] [[2]] ⟨0, 0, 1, 1⟩).2.map
        (fun i => (([[2]] : List (List ℚ)).getD i []).getD 0 0)).sum :=
  ⟨(c5_exact_containment_predicate [⟨0, 0, 1, 1⟩] [[2]] ⟨0, 0, 1, 1⟩
      (by intro r hr; simp at hr; subst hr; rfl) rfl).1 0,
   (c5_exact_containment_predicate [⟨0, 0, 1, 1⟩] [[2]] ⟨0, 0, 1, 1⟩
      (by intro r hr; simp at hr; subst hr; rfl) rfl).2.2 0⟩

/-- C6: for a non-overlapping target partition (pairwise disjoint open
interiors) and a valid source partition, each source index appears in the
consumed set of at most one target cell, each consumed index occurs exactly
once in the concatenated index list handed to `numpy.delete` (so the cell is
excluded from the overlap phase exactly once), and no consumed index
survives into the remaining-index list that feeds the overlap phase, so a
consumed cell contributes its rate to the output exactly once. -/
theorem c6_unique_consumption (fg : List Cell) (fr : List (List ℚ)) (tg : List Cell)
    (htg : tg.Pairwise interiorDisjoint) (hfg : ∀ s ∈ fg, validCell s) :
    (∀ i : ℕ, (tg.filter
      (fun t => decide (i ∈ (Fecsep._map_exact_inside_cells fg fr t).2))).length ≤ 1) ∧
    (∀ i ∈ consumedJoin fg fr tg, (consumedJoin fg fr tg).count i = 1) ∧
    (∀ i ∈ consumedJoin fg fr tg,
      ¬ i ∈ remainingIdx fg.length (consumedJoin fg fr tg)) := by
  have hvalid' : ∀ s ∈ fg, s.lon1 < s.lon2 ∧ s.lat1 < s.lat2 :=
    fun s hs => ⟨(hfg s hs).1, (hfg s hs).2.1⟩
  refine ⟨fun i => ?_, fun i hi => ?_, fun i hi hrem => ?_⟩
  · by_contra hcon
    push_neg at hcon
    have hpair := htg.filter
      (fun t => decide (i ∈ (Fecsep._map_exact_inside_cells fg fr t).2))
    cases hfl : tg.filter
        (fun t => decide (i ∈ (Fecsep._map_exact_inside_cells fg fr t).2)) with
    | nil => rw [hfl] at hcon; simp at hcon
    | cons a l1 =>
      cases hfl2 : l1 with
      | nil => rw [hfl, hfl2] at hcon; simp at hcon
      | cons b l2 =>
        rw [hfl, hfl2] at hpair
        have hdis : interiorDisjoint a b :=
          (List.pairwise_cons.mp hpair).1 b (List.mem_cons_self _ _)
        have hamem : a ∈ tg.filter
            (fun t => decide (i ∈ (Fecsep._map_exact_inside_cells fg fr t).2)) := by
          rw [hfl]; exact List.mem_cons_self _ _
        have hbmem : b ∈ tg.filter
            (fun t => decide (i ∈ (Fecsep._map_exact_inside_cells fg fr t).2)) := by
          rw [hfl, hfl2]; exact List.mem_cons_of_mem _ (List.mem_cons_self _ _)
        have hpa := (List.mem_filter.mp hamem).2
        have hpb := (List.mem_filter.mp hbmem).2
        rw [decide_eq_true_eq] at hpa hpb
        obtain ⟨hilt, hca⟩ := (exact_cells_mem fg fr a i).1 hpa
        obtain ⟨-, hcb⟩ := (exact_cells_mem fg fr b i).1 hpb
        have hsm : fg.getD i default ∈ fg := by
          rw [List.getD_eq_getElem _ _ hilt]
          exact List.getElem_mem _
        exact containedP_unique (hvalid' _ hsm).1 (hvalid' _ hsm).2 hdis hca hcb
  · exact List.count_eq_one_of_mem (consumedJoin_nodup fg fr tg htg hvalid') hi
  · exact ((mem_remainingIdx _ _ _).1 hrem).2 hi

theorem c6_witness :
    (([⟨0, 0, 1, 1⟩, ⟨1, 0, 2, 1⟩] : List Cell).filter
      (fun t => decide (0 ∈ (Fecsep._map_exact_inside_cells
        [⟨0, 0, 1, 1⟩] [[1]] t).2))).length ≤ 1 ∧
    (consumedJoin [⟨0, 0, 1, 1⟩] [[1]] [⟨0, 0, 1, 1⟩, ⟨1, 0, 2, 1⟩]).count 0 = 1 := by
  have hdisj : ([⟨0, 0, 1, 1⟩, ⟨1, 0, 2, 1⟩] : List Cell).Pairwise interiorDisjoint := by
    refine List.pairwise_cons.mpr ⟨?_, List.pairwise_singleton _ _⟩
    intro t ht
    rw [List.mem_singleton] at ht
    subst ht
    rintro p ⟨⟨-, h2, -, -⟩, ⟨h5, -, -, -⟩⟩
    simp only [] at h2 h5
    linarith
  have hval : ∀ s ∈ ([⟨0, 0, 1, 1⟩] : List Cell), validCell s := by
    intro s hs
    rw [List.mem_singleton] at hs
    subst hs
    refine ⟨by norm_num, by norm_num, by norm_num, by norm_num⟩
  refine ⟨(c6_unique_consumption [⟨0, 0, 1, 1⟩] [[1]] [⟨0, 0, 1, 1⟩, ⟨1, 0, 2, 1⟩]
      hdisj hval).1 0,
    (c6_unique_consumption [⟨0, 0, 1, 1⟩] [[1]] [⟨0, 0, 1, 1⟩, ⟨1, 0, 2, 1⟩]
      hdisj hval).2.1 0 ?_⟩
  decide

/-- C3: for every valid input (valid cells, rectangular rate matrix with at
least one magnitude bin, row count matching the source partition) with a
non-empty target partition, the remap returns one rate vector per target
cell (row count = target partition length), every row has the source's
magnitude-bin length, and a target cell receiving no exact-containment and
no overlap contribution is present as an all-zero row of that length. -/
theorem c3_shape_invariant (G : ℚ → ℚ) (cc : ℕ) (tg fg : List Cell)
    (fr : List (List ℚ)) (n : Option ℕ) (htg : tg ≠ [])
    (_hv : ∀ s ∈ fg, validCell s) (_hvt : ∀ t ∈ tg, validCell t)
    (hu : ∀ r ∈ fr, r.length = (fr.headD []).length)
    (hlen : fr.length = fg.length) (hM : 0 < (fr.headD []).length) :
    ∃ out, Fecsep._forecast_mapping_generic G cc tg fg fr n = some out ∧
      out.length = tg.length ∧
      (∀ row ∈ out, row.length = (fr.headD []).length) ∧
      (∀ i < tg.length,
        ((∀ s ∈ fg, ¬ containedP s (tg.getD i default)) ∧
          (∀ j < (npDelete fg (consumedJoin fg fr tg)).length,
            rectIntersects (tg.getD i default)
              ((npDelete fg (consumedJoin fg fr tg)).getD j default) = false)) →
        out.getD i [] = List.replicate (fr.headD []).length 0) := by
  refine ⟨_, fmg_eq_map_targetCellRow G cc tg fg fr n htg, List.length_map _ _,
    ?_, ?_⟩
  · intro row hrow
    rw [List.mem_map] at hrow
    obtain ⟨t, -, rfl⟩ := hrow
    exact targetCellRow_length G tg fg fr t hu hlen hM
  · rintro i hi ⟨hnc, hni⟩
    have hgd : (tg.map (targetCellRow G tg fg fr)).getD i [] =
        targetCellRow G tg fg fr (tg.getD i default) := by
      rw [List.getD_eq_getElem _ _ (by simpa using hi), List.getElem_map,
        List.getD_eq_getElem _ _ hi]
    rw [hgd]
    apply list_eq_replicate_zero (targetCellRow_length G tg fg fr _ hu hlen hM)
    intro k
    rw [targetCellRow_getD G tg fg fr _ hu hlen hM k]
    have hzero1 : overlapScalarN G
        ((npDelete fg (consumedJoin fg fr tg)).map create_polygon)
        ((npDelete fg (consumedJoin fg fr tg)).map (calc_cell_area G))
        (npDelete fr (consumedJoin fg fr tg))
        (create_polygon (tg.getD i default)) k
        ((npDelete fg (consumedJoin fg fr tg)).map create_polygon).length = 0 := by
      apply Finset.sum_eq_zero
      intro j hj
      rw [Finset.mem_range, List.length_map] at hj
      have hpoly : ((npDelete fg (consumedJoin fg fr tg)).map create_polygon).getD
          j default = (npDelete fg (consumedJoin fg fr tg)).getD j default := by
        rw [List.getD_eq_getElem _ _ (by simpa using hj),
          List.getD_eq_getElem _ _ hj, List.getElem_map]
        rfl
      rw [hpoly, create_polygon, hni j hj]
      rfl
    have hzero2 : (Fecsep._map_exact_inside_cells fg fr (tg.getD i default)).2 = [] :=
      exact_cells_nil fg fr _ hnc
    rw [hzero1, hzero2, zero_add]
    rfl

theorem c3_witness :
    ∃ out, Fecsep._forecast_mapping_generic id 1 [⟨0, 0, 1, 1⟩] [⟨0, 0, 1, 1⟩]
      [[1]] none = some out ∧ out.length = 1 := by
  obtain ⟨out, h1, h2, -, -⟩ := c3_shape_invariant id 1 [⟨0, 0, 1, 1⟩] [⟨0, 0, 1, 1⟩]
    [[1]] none (by simp)
    (by intro s hs; rw [List.mem_singleton] at hs; subst hs
        exact ⟨by norm_num, by norm_num, by norm_num, by norm_num⟩)
    (by intro t ht; rw [List.mem_singleton] at ht; subst ht
        exact ⟨by norm_num, by norm_num, by norm_num, by norm_num⟩)
    (by intro r hr; rw [List.mem_singleton] at hr; subst hr; rfl)
    rfl (by norm_num)
  exact ⟨out, h1, h2⟩

/-- C2: remapping a non-empty valid forecast onto its own partition (same
cells in the same order, non-overlapping) returns the original rate matrix
unchanged: every source cell is exactly contained in itself (and in no other
target cell), so the overlap phase receives no remaining cells. -/
theorem c2_identity_remap (G : ℚ → ℚ) (cc : ℕ) (P : List Cell)
    (fr : List (List ℚ)) (n : Option ℕ) (hne : P ≠ [])
    (hP : P.Pairwise interiorDisjoint) (hval : ∀ s ∈ P, validCell s)
    (hu : ∀ r ∈ fr, r.length = (fr.headD []).length) (hlen : fr.length = P.length)
    (hM : 0 < (fr.headD []).length) :
    Fecsep._forecast_mapping_generic G cc P P fr n = some fr := by
  have hval' : ∀ s ∈ P, s.lon1 < s.lon2 ∧ s.lat1 < s.lat2 :=
    fun s hs => ⟨(hval s hs).1, (hval s hs).2.1⟩
  rw [fmg_eq_map_targetCellRow G cc P P fr n hne]
  congr 1
  apply List.ext_getElem (by simp [hlen])
  intro i h1 h2
  rw [List.getElem_map]
  have hifr : i < fr.length := h2
  have hiP : i < P.length := by rw [← hlen]; exact h2
  apply list_eq_of_getD
  · rw [targetCellRow_length G P P fr _ hu hlen hM]
    have : fr[i] ∈ fr := List.getElem_mem _
    exact (hu _ this).symm
  · intro k
    rw [targetCellRow_getD G P P fr _ hu hlen hM k]
    have hjoin := identity_consumedJoin P fr hP hval'
    have hlft : npDelete P (consumedJoin P fr P) = ([] : List Cell) := by
      rw [npDelete, hjoin, remainingIdx_range_self]
      rfl
    have hex : (Fecsep._map_exact_inside_cells P fr P[i]).2 = [i] := by
      have hid := identity_exact_cells P fr i hiP hP hval'
      rwa [List.getD_eq_getElem _ _ hiP] at hid
    rw [hlft, hex]
    simp only [overlapScalarN, List.map_nil, List.length_nil, Finset.range_zero,
      Finset.sum_empty, List.map_cons, List.map_nil, List.sum_cons, List.sum_nil,
      zero_add, add_zero]
    rw [List.getD_eq_getElem _ _ hifr]

theorem c2_witness :
    Fecsep._forecast_mapping_generic id 1 [⟨0, 0, 1, 1⟩] [⟨0, 0, 1, 1⟩] [[3]] none =
      some [[3]] :=
  c2_identity_remap id 1 [⟨0, 0, 1, 1⟩] [[3]] none (by simp)
    (List.pairwise_singleton _ _)
    (by intro s hs; rw [List.mem_singleton] at hs; subst hs
        exact ⟨by norm_num, by norm_num, by norm_num, by norm_num⟩)
    (by intro r hr; rw [List.mem_singleton] at hr; subst hr; rfl)
    rfl (by norm_num)

theorem map_mul_zero_div (rate : List ℚ) (a : ℚ) :
    rate.map (fun r => r * ((0 : ℚ) / a)) = List.replicate rate.length 0 := by
  induction rate with
  | nil => rfl
  | cons x xs ih => simp [ih, List.replicate_succ]

/-- C7: in the overlap phase, a source cell whose intersection with the
target is degenerate (zero lon span or zero lat span, i.e. the rectangles
share only an edge or a corner) has shared area exactly `0` and contributes
an all-zero vector; and for any latitude weight that is strictly monotone on
`[-90, 90]`, a valid cell's own area (the divisor of the proportional
split) is nonzero. -/
theorem c7_degenerate_overlap_safety :
    (∀ (G : ℚ → ℚ) (s t : Cell) (rate : List ℚ) (a : ℚ),
      rectIntersects t s = true →
      ((rectIntersection t s).lon1 = (rectIntersection t s).lon2 ∨
        (rectIntersection t s).lat1 = (rectIntersection t s).lat2) →
      geographical_area_from_bounds G (rectIntersection t s).lon1
        (rectIntersection t s).lat1 (rectIntersection t s).lon2
        (rectIntersection t s).lat2 = 0 ∧
      rate.map (fun r => r * (geographical_area_from_bounds G
        (rectIntersection t s).lon1 (rectIntersection t s).lat1
        (rectIntersection t s).lon2 (rectIntersection t s).lat2 / a)) =
        List.replicate rate.length 0) ∧
    (∀ (G : ℚ → ℚ) (c : Cell), StrictMonoOn G (Set.Icc (-90 : ℚ) 90) →
      validCell c → calc_cell_area G c ≠ 0) := by
  constructor
  · intro G s t rate a _hint hdeg
    have harea : geographical_area_from_bounds G (rectIntersection t s).lon1
        (rectIntersection t s).lat1 (rectIntersection t s).lon2
        (rectIntersection t s).lat2 = 0 := by
      rcases hdeg with h | h
      · rw [geographical_area_from_bounds, ← h, sub_self, zero_mul]
      · rw [geographical_area_from_bounds, ← h, sub_self, mul_zero]
    refine ⟨harea, ?_⟩
    rw [harea]
    exact map_mul_zero_div rate a
  · intro G c hmono hc
    exact calc_cell_area_ne_zero G c hmono hc

theorem c7_witness :
    geographical_area_from_bounds id
      (rectIntersection ⟨0, 0, 1, 1⟩ ⟨1, 0, 2, 1⟩).lon1
      (rectIntersection ⟨0, 0, 1, 1⟩ ⟨1, 0, 2, 1⟩).lat1
      (rectIntersection ⟨0, 0, 1, 1⟩ ⟨1, 0, 2, 1⟩).lon2
      (rectIntersection ⟨0, 0, 1, 1⟩ ⟨1, 0, 2, 1⟩).lat2 = 0 ∧
    calc_cell_area id ⟨0, 0, 1, 1⟩ ≠ 0 :=
  ⟨(c7_degenerate_overlap_safety.1 id ⟨1, 0, 2, 1⟩ ⟨0, 0, 1, 1⟩ [5] 1
      (by decide) (Or.inl (by decide))).1,
   c7_degenerate_overlap_safety.2 id ⟨0, 0, 1, 1⟩ (fun x _ y _ h => h)
     ⟨by norm_num, by norm_num, by norm_num, by norm_num⟩⟩

/-- C1: mass conservation: for every valid non-empty source forecast and
every non-overlapping target partition whose half-open cells exactly tile
the same footprint as the source partition, the remap succeeds and the
element-wise sum over all output rate vectors equals the element-wise sum
over all source rate vectors (exactly, in the rational idealisation of
floating point), for any latitude weight strictly monotone on `[-90, 90]`
(as the real spherical weight is). -/
theorem c1_mass_conservation (G : ℚ → ℚ) (cc : ℕ) (tg fg : List Cell)
    (fr : List (List ℚ)) (n : Option ℕ)
    (hGmono : StrictMonoOn G (Set.Icc (-90 : ℚ) 90))
    (hfg_ne : fg ≠ [])
    (hv : ∀ s ∈ fg, validCell s) (hvt : ∀ t ∈ tg, validCell t)
    (htdisj : tg.Pairwise hoDisjoint)
    (hfoot : ∀ p : ℚ × ℚ, (∃ s ∈ fg, memHO p s) ↔ (∃ t ∈ tg, memHO p t))
    (_hnneg : ∀ r ∈ fr, ∀ x ∈ r, 0 ≤ x)
    (hu : ∀ r ∈ fr, r.length = (fr.headD []).length)
    (hlen : fr.length = fg.length) (hM : 0 < (fr.headD []).length) :
    ∃ out, Fecsep._forecast_mapping_generic G cc tg fg fr n = some out ∧
      vecSum (fr.headD []).length out = vecSum (fr.headD []).length fr := by
  have hval' : ∀ s ∈ fg, s.lon1 < s.lon2 ∧ s.lat1 < s.lat2 :=
    fun s hs => ⟨(hv s hs).1, (hv s hs).2.1⟩
  have htgne : tg ≠ [] := by
    obtain ⟨s0, hs0⟩ : ∃ s, s ∈ fg := by
      cases fg with
      | nil => exact absurd rfl hfg_ne
      | cons a l => exact ⟨a, List.mem_cons_self _ _⟩
    have hp0 : memHO (s0.lon1, s0.lat1) s0 :=
      ⟨le_refl _, (hval' s0 hs0).1, le_refl _, (hval' s0 hs0).2⟩
    obtain ⟨t, htT, -⟩ := (hfoot _).1 ⟨s0, hs0, hp0⟩
    intro h
    rw [h] at htT
    exact absurd htT (List.not_mem_nil t)
  have hnodup : (consumedJoin fg fr tg).Nodup :=
    consumedJoin_nodup fg fr tg
      (htdisj.imp (fun h => hoDisjoint_interiorDisjoint h)) hval'
  have hbound : ∀ i ∈ consumedJoin fg fr tg, i < fr.length := by
    intro i hi
    rw [hlen]
    exact ((mem_consumedJoin fg fr tg i).1 hi).1
  refine ⟨_, fmg_eq_map_targetCellRow G cc tg fg fr n htgne, ?_⟩
  have hrows : ∀ row ∈ tg.map (targetCellRow G tg fg fr),
      row.length = (fr.headD []).length := by
    intro row hrow
    rw [List.mem_map] at hrow
    obtain ⟨t, -, rfl⟩ := hrow
    exact targetCellRow_length G tg fg fr t hu hlen hM
  apply list_eq_of_getD
  · rw [vecSum_length _ _ hrows, vecSum_length _ _ hu]
  · intro k
    rw [vecSum_getD _ _ hrows k, vecSum_getD _ _ hu k, List.map_map]
    have hterm : ∀ t ∈ tg, ((fun r => r.getD k 0) ∘ targetCellRow G tg fg fr) t =
        (fun t' => overlapScalarN G
          ((npDelete fg (consumedJoin fg fr tg)).map create_polygon)
          ((npDelete fg (consumedJoin fg fr tg)).map (calc_cell_area G))
          (npDelete fr (consumedJoin fg fr tg)) (create_polygon t') k
          ((npDelete fg (consumedJoin fg fr tg)).map create_polygon).length) t +
        (fun t' => ((Fecsep._map_exact_inside_cells fg fr t').2.map
          (fun i => (fr.getD i []).getD k 0)).sum) t := by
      intro t _
      exact targetCellRow_getD G tg fg fr t hu hlen hM k
    rw [List.map_congr_left hterm, sum_map_add,
      overlap_sum_total G tg fg fr (consumedJoin fg fr tg) k hGmono hv hvt htdisj
        (fun p hp => (hfoot p).1 hp) hlen,
      exact_sum_total fg fr tg k,
      map_sum_eq_range_list fr (fun r => r.getD k 0) [],
      sum_range_split fr.length (consumedJoin fg fr tg) hnodup hbound
        (fun i => (fr.getD i []).getD k 0)]
    exact add_comm _ _

theorem c1_witness :
    ∃ out, Fecsep._forecast_mapping_generic id 1 [⟨0, 0, 1, 1⟩, ⟨1, 0, 2, 1⟩]
        [⟨0, 0, 2, 1⟩] [[4]] (some 2) = some out ∧
      vecSum 1 out = vecSum 1 [[4]] :=
  c1_mass_conservation id 1 [⟨0, 0, 1, 1⟩, ⟨1, 0, 2, 1⟩] [⟨0, 0, 2, 1⟩] [[4]]
    (some 2) (fun x _ y _ h => h) (by simp)
    (by intro s hs; rw [List.mem_singleton] at hs; subst hs
        exact ⟨by norm_num, by norm_num, by norm_num, by norm_num⟩)
    (by intro t ht
        rcases List.mem_cons.mp ht with rfl | ht2
        · exact ⟨by norm_num, by norm_num, by norm_num, by norm_num⟩
        · rw [List.mem_singleton] at ht2
          subst ht2
          exact ⟨by norm_num, by norm_num, by norm_num, by norm_num⟩)
    (by refine List.pairwise_cons.mpr ⟨?_, List.pairwise_singleton _ _⟩
        intro t ht
        rw [List.mem_singleton] at ht
        subst ht
        rintro p ⟨⟨-, h2, -, -⟩, ⟨h5, -, -, -⟩⟩
        simp only [] at h2 h5
        linarith)
    (by intro p
        constructor
        · rintro ⟨s, hs, hmem⟩
          rw [List.mem_singleton] at hs
          subst hs
          obtain ⟨m1, m2, m3, m4⟩ := hmem
          simp only [] at m1 m2 m3 m4
          by_cases hx : p.1 < 1
          · exact ⟨⟨0, 0, 1, 1⟩, List.mem_cons_self _ _, m1, hx, m3, m4⟩
          · refine ⟨⟨1, 0, 2, 1⟩, List.mem_cons_of_mem _ (List.mem_cons_self _ _),
              ?_, m2, m3, m4⟩
            simp only []
            linarith
        · rintro ⟨t, ht, hmem⟩
          refine ⟨⟨0, 0, 2, 1⟩, List.mem_singleton.mpr rfl, ?_⟩
          rcases List.mem_cons.mp ht with rfl | ht2
          · obtain ⟨m1, m2, m3, m4⟩ := hmem
            simp only [] at m1 m2 m3 m4
            exact ⟨m1, show p.1 < 2 by linarith, m3, m4⟩
          · rw [List.mem_singleton] at ht2
            subst ht2
            obtain ⟨m1, m2, m3, m4⟩ := hmem
            simp only [] at m1 m2 m3 m4
            exact ⟨show (0 : ℚ) ≤ p.1 by linarith, m2, m3, m4⟩)
    (by intro r hr
        rw [List.mem_singleton] at hr
        subst hr
        intro x hx
        rw [List.mem_singleton] at hx
        subst hx
        norm_num)
    (by intro r hr; rw [List.mem_singleton] at hr; subst hr; rfl)
    rfl (by norm_num)
